import Mathlib

/-! Verification development for the e-commerce order API.

Shallow embedding of the three subsystems of the Go program
(`main.go`, `handler.go`, `models.go`):

* the per-address rate limiter `rateLimiterMiddleware`,
* the discount engine `applyDiscount` and `CalculateTotalPrice`,
* the order pipeline `placeOrder` and the reminder sweep
  `runPendingOrderReminderTask`.
-/

namespace Ecommerce

/-! ## Machine integers and the `map[string]int` table -/

/-- Two's-complement wrap of a mathematical integer into Go's 64-bit `int`. -/
def wrapInt64 (x : Int) : Int := (x + 2 ^ 63) % 2 ^ 64 - 2 ^ 63

/-- The value fits Go's 64-bit `int`. -/
def InInt64 (x : Int) : Prop := -(2 ^ 63) ≤ x ∧ x < 2 ^ 63

instance (x : Int) : Decidable (InInt64 x) := by unfold InInt64; infer_instance

/-- A Go `map[string]int`, kept as a list of key and value pairs. -/
abbrev CountMap := List (String × Int)

/-- Map read `m[k]`: a missing key reads as the zero value. -/
def CountMap.get : CountMap → String → Int
  | [], _ => 0
  | (k', v) :: rest, k => if k' = k then v else CountMap.get rest k

/-- Map write `m[k] = v`: replaces the entry of `k` or inserts one. -/
def CountMap.put : CountMap → String → Int → CountMap
  | [], k, v => [(k, v)]
  | (k', v') :: rest, k, v =>
    if k' = k then (k, v) :: rest else (k', v') :: CountMap.put rest k v

/-! ## Rate limiter (`main.go`) -/

/-- Go's `time.Minute`, in nanoseconds. -/
def minute : Nat := 60 * 1000000000

/-- A pending `time.AfterFunc` callback of the limiter: the instant it fires
and the address its closure captured. -/
structure Timer where
  fireAt : Nat
  ip : String
  deriving DecidableEq, Repr

/-- Process-wide limiter state: the table `requestsPerIP` and the timers the
runtime holds for the scheduled decrements. -/
structure LimiterState where
  requestsPerIP : CountMap
  timers : List Timer
  deriving DecidableEq, Repr

/-- Observable actions of one run of the middleware handler, in program order. -/
inductive Event where
  | lock
  | unlock
  | httpError (status : Nat) (body : String)
  | increment (ip : String)
  | afterFunc (delay : Nat) (ip : String)
  | serveNext
  deriving DecidableEq, Repr

/-- The table and the timer set at program start. -/
def LimiterState.init : LimiterState := { requestsPerIP := [], timers := [] }

/-- The handler returned by `rateLimiterMiddleware`, run at instant `now` for a
request from `ip`.  The mutex is locked on entry and its `Unlock` is deferred,
so it is the last action on every return path. -/
def rateLimiterMiddleware (now : Nat) (ip : String) (st : LimiterState) :
    LimiterState × List Event :=
  let deferred := [Event.unlock]
  if 100 ≤ st.requestsPerIP.get ip then
    (st, [Event.lock, Event.httpError 429 "Too many requests"] ++ deferred)
  else
    let table := st.requestsPerIP.put ip (wrapInt64 (st.requestsPerIP.get ip + 1))
    ({ requestsPerIP := table, timers := st.timers ++ [{ fireAt := now + minute, ip := ip }] },
      [Event.lock, Event.increment ip, Event.afterFunc minute ip, Event.serveNext] ++ deferred)

/-- Body of the closure handed to `time.AfterFunc`: `requestsPerIP[ip]--`. -/
def timerFire (ip : String) (table : CountMap) : CountMap :=
  table.put ip (wrapInt64 (table.get ip - 1))

/-- One transition of the limiter: a request arrives, or the `i`-th pending
timer fires (and leaves the timer set, so it fires once). -/
inductive Step where
  | request (now : Nat) (ip : String)
  | fire (i : Nat)
  deriving DecidableEq, Repr

/-- Effect of one transition on the limiter state. -/
def LimiterState.step (st : LimiterState) : Step → LimiterState
  | Step.request now ip => (rateLimiterMiddleware now ip st).1
  | Step.fire i =>
    match st.timers[i]? with
    | none => st
    | some t => { requestsPerIP := timerFire t.ip st.requestsPerIP, timers := st.timers.eraseIdx i }

/-- Effect of a finite sequence of transitions. -/
def LimiterState.run (steps : List Step) (st : LimiterState) : LimiterState :=
  steps.foldl LimiterState.step st

/-- Number of pending timers whose closure captured `ip`. -/
def pendingFor (ip : String) (timers : List Timer) : Nat :=
  (timers.filter (fun t => t.ip = ip)).length

/-- Invariant of the limiter: each count equals the number of pending timers of
its address and stays at or below the limit. -/
def LimiterInv (st : LimiterState) : Prop :=
  ∀ ip, st.requestsPerIP.get ip = (pendingFor ip st.timers : Int) ∧
    pendingFor ip st.timers ≤ 100

/-- The request was passed to the downstream handler. -/
def admitted (events : List Event) : Bool := events.contains Event.serveNext

/-! ### Timed runs: every decrement is due exactly one minute after admission -/

/-- A request admitted by the limiter: its arrival instant and remote address. -/
structure Request where
  time : Nat
  ip : String
  deriving DecidableEq, Repr

/-- An arriving request, with the outcome of its race for the mutex against
the decrements due at that very instant: the positions in the timer set of
those that ran before the handler took the lock. -/
structure Arrival where
  time : Nat
  ip : String
  ranFirst : List Nat
  deriving DecidableEq, Repr

/-- The timer at position `i` has run when the handler takes the lock at
`now`: always when it was due earlier, and when it was due at `now` itself
only if it won the race. -/
def hasRun (now : Nat) (ranFirst : List Nat) (i : Nat) (t : Timer) : Bool :=
  decide (t.fireAt < now) || (decide (t.fireAt = now) && decide (i ∈ ranFirst))

/-- The table after the timers that have run, from position `i` on. -/
def fireTable (now : Nat) (ranFirst : List Nat) : Nat → List Timer → CountMap → CountMap
  | _, [], m => m
  | i, t :: rest, m =>
    if hasRun now ranFirst i t then fireTable now ranFirst (i + 1) rest (timerFire t.ip m)
    else fireTable now ranFirst (i + 1) rest m

/-- The timers still pending, from position `i` on. -/
def keepTimers (now : Nat) (ranFirst : List Nat) : Nat → List Timer → List Timer
  | _, [] => []
  | i, t :: rest =>
    if hasRun now ranFirst i t then keepTimers now ranFirst (i + 1) rest
    else t :: keepTimers now ranFirst (i + 1) rest

/-- The limiter state when the handler takes the lock at instant `now`. -/
def fireDue (now : Nat) (ranFirst : List Nat) (st : LimiterState) : LimiterState :=
  { requestsPerIP := fireTable now ranFirst 0 st.timers st.requestsPerIP,
    timers := keepTimers now ranFirst 0 st.timers }

/-- The handler run at instant `now`, after the decrements that ran first. -/
def handleAt (now : Nat) (ranFirst : List Nat) (ip : String) (st : LimiterState) :
    LimiterState × List Event :=
  rateLimiterMiddleware now ip (fireDue now ranFirst st)

/-- One arrival of a timed run: the state after it, and the log of admitted
requests extended when this one is admitted. -/
def timedStep (acc : LimiterState × List Request) (r : Arrival) :
    LimiterState × List Request :=
  let res := handleAt r.time r.ranFirst r.ip acc.1
  (res.1, if admitted res.2 then acc.2 ++ [{ time := r.time, ip := r.ip }] else acc.2)

/-- Timed run from program start over arrivals given in arrival order. -/
def runTimed (reqs : List Arrival) : LimiterState × List Request :=
  reqs.foldl timedStep (LimiterState.init, [])

/-- Admitted requests of `ip` in the log admitted less than a minute before
`now`: their decrement is not due yet. -/
def admittedWithin (log : List Request) (ip : String) (now : Nat) : Nat :=
  (log.filter (fun a => a.ip = ip ∧ now < a.time + minute)).length

/-- Admitted requests of `ip` in the log admitted at most a minute before
`now`: their decrement was not due before `now`. -/
def admittedUpTo (log : List Request) (ip : String) (now : Nat) : Nat :=
  (log.filter (fun a => a.ip = ip ∧ now ≤ a.time + minute)).length

/-- Admitted requests of `ip` in the 60-second window that ends at `T`. -/
def windowCount (log : List Request) (ip : String) (T : Nat) : Nat :=
  (log.filter (fun a => a.ip = ip ∧ a.time ≤ T ∧ T < a.time + minute)).length

/-- The timer scheduled by an admitted request. -/
def Request.timer (a : Request) : Timer := { fireAt := a.time + minute, ip := a.ip }

/-- A burst of `n` requests from `ip` at instant 0, none racing a decrement. -/
def burst (n : Nat) (ip : String) : List Arrival :=
  List.replicate n { time := 0, ip := ip, ranFirst := [] }

/-- Arrival instants never decrease along the list. -/
def TimeOrdered (reqs : List Arrival) : Prop :=
  reqs.Pairwise (fun a b => a.time ≤ b.time)

instance (reqs : List Arrival) : Decidable (TimeOrdered reqs) := by
  unfold TimeOrdered; infer_instance

/-! ## IEEE 754 binary64 (`float64`) -/

/-- A `float64` value as the three fields of its bit pattern: sign bit, biased
exponent (11 bits) and fraction (52 bits). -/
structure F64 where
  sign : Bool
  exp : Nat
  frac : Nat
  deriving DecidableEq, Repr

/-- The fields fit their widths. -/
def F64.WF (x : F64) : Prop := x.exp ≤ 2047 ∧ x.frac < 2 ^ 52

/-- A finite number (zero, subnormal or normal), with fields in range. -/
def F64.IsFinite (x : F64) : Prop := x.exp < 2047 ∧ x.frac < 2 ^ 52

instance (x : F64) : Decidable x.WF := by unfold F64.WF; infer_instance

instance (x : F64) : Decidable x.IsFinite := by unfold F64.IsFinite; infer_instance

/-- Not a number. -/
def F64.isNaN (x : F64) : Bool := x.exp == 2047 && x.frac != 0

/-- Plus or minus infinity. -/
def F64.isInf (x : F64) : Bool := x.exp == 2047 && x.frac == 0

/-- Integer significand, with the hidden bit of a normal number. -/
def F64.mant (x : F64) : Nat := if x.exp = 0 then x.frac else 2 ^ 52 + x.frac

/-- Exponent of the last significand bit, counted from the smallest subnormal
`2 ^ (-1074)`. -/
def F64.shift (x : F64) : Nat := x.exp - 1

/-- Magnitude of a finite value in units of `2 ^ (-1074)`; always an integer. -/
def F64.mag (x : F64) : Nat := x.mant * 2 ^ x.shift

/-- Signed value of a finite number in units of `2 ^ (-1074)`. -/
def F64.toInt (x : F64) : Int := if x.sign then -(x.mag : Int) else (x.mag : Int)

/-- The quiet NaN produced by invalid operations (payload not tracked). -/
def F64.nan : F64 := ⟨false, 2047, 2 ^ 51⟩

/-- Infinity of the given sign. -/
def F64.inf (neg : Bool) : F64 := ⟨neg, 2047, 0⟩

/-- Zero of the given sign. -/
def F64.zero (neg : Bool) : F64 := ⟨neg, 0, 0⟩

/-- Position of the leading one bit, with the given recursion budget. -/
def log2Aux : Nat → Nat → Nat
  | 0, _ => 0
  | fuel + 1, n => if n < 2 then 0 else log2Aux fuel (n / 2) + 1

/-- Floor of the binary logarithm of a positive number. -/
def log2Floor (n : Nat) : Nat := log2Aux n n

/-- Rounds the exact magnitude `n / 2 ^ scale` (in units of `2 ^ (-1074)`) to
the nearest `float64`, ties to even, and packs it with the sign; overflow
gives infinity. -/
def roundPack (neg : Bool) (n scale : Nat) : F64 :=
  if n = 0 then F64.zero neg
  else
    let q := log2Floor n - scale - 52
    let sh := scale + q
    let k := n / 2 ^ sh
    let rem := n % 2 ^ sh
    let up := decide (2 ^ sh < 2 * rem) || (decide (2 * rem = 2 ^ sh) && decide (k % 2 = 1))
    let k1 := if up then k + 1 else k
    if k1 < 2 ^ 52 then ⟨neg, 0, k1⟩
    else if k1 < 2 ^ 53 then (if q + 1 < 2047 then ⟨neg, q + 1, k1 - 2 ^ 52⟩ else F64.inf neg)
    else (if q + 2 < 2047 then ⟨neg, q + 2, 0⟩ else F64.inf neg)

/-- Go's `a * b` on `float64`. -/
def fmul (a b : F64) : F64 :=
  if a.isNaN || b.isNaN then F64.nan
  else if a.isInf then (if b.mag = 0 then F64.nan else F64.inf (xor a.sign b.sign))
  else if b.isInf then (if a.mag = 0 then F64.nan else F64.inf (xor a.sign b.sign))
  else roundPack (xor a.sign b.sign) (a.mag * b.mag) 1074

/-- Go's `a + b` on `float64`. -/
def fadd (a b : F64) : F64 :=
  if a.isNaN || b.isNaN then F64.nan
  else if a.isInf then (if b.isInf && (a.sign != b.sign) then F64.nan else a)
  else if b.isInf then b
  else
    let d := a.toInt + b.toInt
    if d = 0 then F64.zero (a.sign && b.sign)
    else roundPack (decide (d < 0)) d.natAbs 0

/-- Go's unary minus on `float64`. -/
def fneg (a : F64) : F64 := { a with sign := !a.sign }

/-- Go's `a - b` on `float64`. -/
def fsub (a b : F64) : F64 := fadd a (fneg b)

/-- Fused multiply-add `a * b + c` with a single rounding. -/
def ffma (a b c : F64) : F64 :=
  if a.isNaN || b.isNaN || c.isNaN then F64.nan
  else if a.isInf || b.isInf then fadd (fmul a b) c
  else if c.isInf then c
  else
    let d := a.toInt * b.toInt + c.toInt * 2 ^ 1074
    if d = 0 then F64.zero ((xor a.sign b.sign) && c.sign)
    else roundPack (decide (d < 0)) d.natAbs 1074

/-- Go's `a <= b` on `float64`: false when either side is NaN. -/
def fle (a b : F64) : Bool :=
  if a.isNaN || b.isNaN then false
  else if a.isInf then a.sign || (b.isInf && !b.sign)
  else if b.isInf then !b.sign
  else decide (a.toInt ≤ b.toInt)

/-- The `float64` nearest to a natural number. -/
def F64.ofNat (n : Nat) : F64 := roundPack false (n * 2 ^ 1074) 0

/-- The `float64` nearest to minus a natural number. -/
def F64.ofNegNat (n : Nat) : F64 := roundPack true (n * 2 ^ 1074) 0

/-- The constant `0.1` as a `float64` (bits `0x3FB999999999999A`). -/
def rate10 : F64 := ⟨false, 1019, 0x999999999999A⟩

/-- The constant `0.05` as a `float64` (bits `0x3FA999999999999A`). -/
def rate5 : F64 := ⟨false, 1018, 0x999999999999A⟩

/-- The statement `price -= price * percentage`.  Go lets a compiler fuse the
multiplication and the subtraction into one rounding; `fused` selects that
evaluation, otherwise each operation rounds on its own. -/
def discountPrice (fused : Bool) (price percentage : F64) : F64 :=
  if fused then ffma (fneg price) percentage price
  else fsub price (fmul price percentage)

/-! ## Records (`models.go`) -/

/-- Instant with the zone offset of its location, as far as `Weekday` and the
next local midnight depend on it. -/
structure Time where
  unixNano : Int
  offsetSec : Int
  deriving DecidableEq, Repr

/-- The driver's `primitive.ObjectID`: twelve bytes. -/
structure ObjectID where
  bytes : List Nat
  deriving DecidableEq, Repr

/-- The zero value of `ObjectID`. -/
def NilObjectID : ObjectID := ⟨[0, 0, 0, 0, 0, 0, 0, 0, 0, 0, 0, 0]⟩

/-- The record `Product`. -/
structure Product where
  ID : ObjectID
  Name : String
  Price : F64
  Description : String
  Image : String
  Categories : List String
  deriving DecidableEq, Repr

/-- The record `Order`. -/
structure Order where
  ID : ObjectID
  CustomerID : String
  Date : Time
  Status : String
  Products : List Product
  deriving DecidableEq, Repr

/-- The record `Discount`; its field `Discount` is named `Percent` here, since
a field cannot repeat the name of its record. -/
structure Discount where
  Code : String
  Percent : Int
  Rules : String
  deriving DecidableEq, Repr

/-- The record `OrderRequest`. -/
structure OrderRequest where
  CustomerID : String
  ProductIDs : List String
  DiscountCode : String
  deriving DecidableEq, Repr

/-! ## Discount engine (`handler.go`) -/

/-- Go's `time.Weekday`: Sunday is 0 and Saturday is 6, read on the local
calendar day of the instant. -/
def Time.Weekday (t : Time) : Nat :=
  (((t.unixNano / 1000000000 + t.offsetSec) / 86400 + 4) % 7).toNat

/-- Assignment to the element at index `i` of a slice, when in range. -/
def updateAt {α : Type} (l : List α) (i : Nat) (f : α → α) : List α :=
  match l, i with
  | [], _ => []
  | a :: rest, 0 => f a :: rest
  | a :: rest, i + 1 => a :: updateAt rest i f

/-- The function `contains`: linear search with early return. -/
def contains : List String → String → Bool
  | [], _ => false
  | item :: rest, str => if item = str then true else contains rest str

/-- The product with its price discounted. -/
def Product.discounted (fused : Bool) (percentage : F64) (p : Product) : Product :=
  { p with Price := discountPrice fused p.Price percentage }

/-- The method `applyPercentageDiscount`: the index loop over the products. -/
def applyPercentageDiscount (fused : Bool) (order : Order) (percentage : F64) : Order :=
  (List.range order.Products.length).foldl
    (fun o i => { o with Products := updateAt o.Products i (Product.discounted fused percentage) })
    order

/-- The method `applyCategoryDiscount`: the index loop with the category test. -/
def applyCategoryDiscount (fused : Bool) (order : Order) (category : String)
    (percentage : F64) : Order :=
  (List.range order.Products.length).foldl
    (fun o i => { o with Products := (updateAt o.Products i
      (fun p => if contains p.Categories category then p.discounted fused percentage else p)) })
    order

/-- The method `applyWeekendDiscount`. -/
def applyWeekendDiscount (fused : Bool) (order : Order) (percentage : F64) : Order :=
  if order.Date.Weekday = 6 ∨ order.Date.Weekday = 0 then
    applyPercentageDiscount fused order percentage
  else order

/-- The method `applyDiscount`: the switch on the discount code. -/
def applyDiscount (fused : Bool) (order : Order) (discount : Discount) : Order :=
  if discount.Code = "IC003" then applyPercentageDiscount fused order rate10
  else if discount.Code = "IC042" then applyCategoryDiscount fused order "electronic" rate5
  else if discount.Code = "IC015" then applyWeekendDiscount fused order rate10
  else order

/-- The method `CalculateTotalPrice`: running sum from `0.0`, in order. -/
def CalculateTotalPrice (order : Order) : F64 :=
  order.Products.foldl (fun total product => fadd total product.Price) (F64.zero false)

/-! ## Order pipeline (`handler.go`) -/

/-- The record `Customer`. -/
structure Customer where
  ID : ObjectID
  Name : String
  Email : String
  Password : String
  deriving DecidableEq, Repr

/-- Value of one hexadecimal digit. -/
def hexDigit (c : Char) : Option Nat :=
  if '0' ≤ c ∧ c ≤ '9' then some (c.toNat - '0'.toNat)
  else if 'a' ≤ c ∧ c ≤ 'f' then some (c.toNat - 'a'.toNat + 10)
  else if 'A' ≤ c ∧ c ≤ 'F' then some (c.toNat - 'A'.toNat + 10)
  else none

/-- Decodes pairs of hexadecimal digits into bytes. -/
def hexDecode : List Char → Option (List Nat)
  | [] => some []
  | [_] => none
  | hi :: lo :: rest =>
    match hexDigit hi, hexDigit lo, hexDecode rest with
    | some h, some l, some bs => some ((16 * h + l) :: bs)
    | _, _, _ => none

/-- The driver's `primitive.ObjectIDFromHex`: twenty-four hexadecimal digits. -/
def ObjectIDFromHex (s : String) : Option ObjectID :=
  if s.utf8ByteSize ≠ 24 then none
  else (hexDecode s.toList).map ObjectID.mk

/-- Outcome of the discount lookup `FindOne(...).Decode(&discount)`. -/
inductive DiscountLookup where
  | found (discount : Discount)
  | noDocuments
  | failed (message : String)
  deriving DecidableEq, Repr

/-- The document store and the clock, as `placeOrder` uses them. -/
structure Store where
  findCustomer : ObjectID → Option Customer
  findProducts : List ObjectID → Except String (List Product)
  findDiscount : String → DiscountLookup
  insertOrder : Order → Except String ObjectID
  now : Time

/-- A call made to the document store. -/
inductive StoreOp where
  | findCustomer (id : ObjectID)
  | findProducts (ids : List ObjectID)
  | findDiscount (code : String)
  | insertOrder (order : Order)
  deriving DecidableEq, Repr

/-- Body written to the response. -/
inductive Body where
  | error (message : String)
  | orderPlaced (orderID : ObjectID) (message : String)
  deriving DecidableEq, Repr

/-- Status and body of the HTTP response. -/
structure Response where
  status : Nat
  body : Body
  deriving DecidableEq, Repr

/-- The loop of `placeOrder` converting product identifiers: stops at the first
one that is not a valid hexadecimal object identifier. -/
def convertProductIDs : List String → Option (List ObjectID)
  | [] => some []
  | productID :: rest =>
    match ObjectIDFromHex productID with
    | none => none
    | some objectID => (convertProductIDs rest).map (fun ids => objectID :: ids)

/-- The handler `placeOrder`, given the outcome of decoding the request body;
returns the response and the calls made to the store, in order. -/
def placeOrder (fused : Bool) (env : Store) (decoded : Except String OrderRequest) :
    Response × List StoreOp :=
  match decoded with
  | Except.error err => (⟨400, Body.error err⟩, [])
  | Except.ok orderReq =>
    if orderReq.CustomerID = "" ∨ orderReq.ProductIDs.length = 0 then
      (⟨400, Body.error "Invalid order request"⟩, [])
    else
      match ObjectIDFromHex orderReq.CustomerID with
      | none => (⟨400, Body.error "Invalid customer ID"⟩, [])
      | some customerID =>
        match env.findCustomer customerID with
        | none => (⟨404, Body.error "Customer not found"⟩, [StoreOp.findCustomer customerID])
        | some _ =>
          match convertProductIDs orderReq.ProductIDs with
          | none => (⟨400, Body.error "Invalid product ID"⟩, [StoreOp.findCustomer customerID])
          | some objectIDs =>
            match env.findProducts objectIDs with
            | Except.error err =>
              (⟨500, Body.error err⟩,
                [StoreOp.findCustomer customerID, StoreOp.findProducts objectIDs])
            | Except.ok products =>
              let lookups := [StoreOp.findCustomer customerID, StoreOp.findProducts objectIDs,
                StoreOp.findDiscount orderReq.DiscountCode]
              match env.findDiscount orderReq.DiscountCode with
              | DiscountLookup.failed err => (⟨500, Body.error err⟩, lookups)
              | lookup =>
                let order : Order :=
                  { ID := NilObjectID, CustomerID := orderReq.CustomerID, Date := env.now,
                    Status := "pending", Products := products }
                let order :=
                  match lookup with
                  | DiscountLookup.found discount => applyDiscount fused order discount
                  | _ => order
                match env.insertOrder order with
                | Except.error err =>
                  (⟨500, Body.error err⟩, lookups ++ [StoreOp.insertOrder order])
                | Except.ok insertedID =>
                  (⟨200, Body.orderPlaced insertedID "Order placed successfully"⟩,
                    lookups ++ [StoreOp.insertOrder order])

/-! ## Reminder sweep (`handler.go`) -/

/-- A zone of a `time.Location`: its offset east of UTC in seconds and the span
of unix seconds, from `start` up to but not including `stop`, where it holds. -/
structure Zone where
  offset : Int
  start : Int
  stop : Int
  deriving DecidableEq, Repr

/-- A `time.Location`, as its lookup of the zone in effect at a unix second. -/
abbrev Location := Int → Zone

/-- A location with one zone for all time, such as `time.UTC`. -/
def fixedZone (offset : Int) : Location :=
  fun _ => { offset := offset, start := -(2 ^ 63), stop := 2 ^ 63 - 1 }

/-- New York around the clock change of 29 October 2000: daylight time
(UTC-4) until 06:00 UTC that day, standard time (UTC-5) from then on. -/
def newYorkAutumn2000 : Location :=
  fun sec =>
    if sec < 972799200 then { offset := -14400, start := 954658800, stop := 972799200 }
    else { offset := -18000, start := 972799200, stop := 986108400 }

/-- The unix second of `time.Date(now.Year(), now.Month(), now.Day()+1, 0, 0, 0,
0, now.Location())` for `now` in unix nanoseconds: the calendar day is read on
the local wall clock of `now`, and the midnight after it is converted back with
the zone that the location gives for that wall time, as `time.Date` does. -/
def dateNextDay (loc : Location) (now : Int) : Int :=
  let sec := now / 1000000000
  let wall := sec + (loc sec).offset
  let unix := (wall / 86400 + 1) * 86400
  let zone := loc unix
  if zone.offset ≠ 0 then
    let utc := unix - zone.offset
    if utc < zone.start ∨ zone.stop ≤ utc then unix - (loc utc).offset
    else unix - zone.offset
  else unix

/-- A `time.Duration` kept within 64 bits, as `Time.Sub` saturates. -/
def satDuration (d : Int) : Int :=
  if d < -(2 ^ 63) then -(2 ^ 63) else if 2 ^ 63 - 1 < d then 2 ^ 63 - 1 else d

/-- The value `midnight.Sub(now)` of the loop body, in nanoseconds. -/
def durationUntilMidnight (loc : Location) (now : Int) : Int :=
  satDuration (dateNextDay loc now * 1000000000 - now)

/-- How a `for ... range` loop declares its variable: one variable per
iteration (Go 1.22 and later) or one variable for the whole loop (earlier
language versions).  The language version is set outside the source files. -/
inductive LoopVar where
  | perIteration
  | perLoop
  deriving DecidableEq, Repr

/-- A timer created by `time.AfterFunc` in the sweep: its delay and the
variable its closure captured. -/
structure Reminder where
  delay : Int
  captured : Nat
  deriving DecidableEq, Repr

/-- Variables named `order` created by the loop, and the timers scheduled. -/
structure SweepState where
  cells : List Order
  timers : List Reminder
  deriving DecidableEq, Repr

/-- One iteration of the loop of `runPendingOrderReminderTask`, with `now` in
unix nanoseconds read in location `loc`. -/
def sweepStep (sem : LoopVar) (loc : Location) (now : Int) (st : SweepState)
    (order : Order) : SweepState :=
  match sem with
  | LoopVar.perIteration =>
    { cells := st.cells ++ [order],
      timers := st.timers ++
        [{ delay := durationUntilMidnight loc now, captured := st.cells.length }] }
  | LoopVar.perLoop =>
    { cells := [order],
      timers := st.timers ++ [{ delay := durationUntilMidnight loc now, captured := 0 }] }

/-- The function `runPendingOrderReminderTask` at trigger time `now`, over the
orders returned by `getCustomersWithPendingOrders`. -/
def runPendingOrderReminderTask (sem : LoopVar) (loc : Location) (now : Int)
    (pendingOrders : List Order) : SweepState :=
  pendingOrders.foldl (sweepStep sem loc now) { cells := [], timers := [] }

/-- Argument of `sendOrderReminderEmail` when the `i`-th timer fires after the
sweep: the `CustomerID` read from the captured variable at that time. -/
def firedCustomer (st : SweepState) (i : Nat) : Option String :=
  (st.timers[i]?).bind (fun t => (st.cells[t.captured]?).map (fun o => o.CustomerID))

/-- A pending order of the given customer, with no line items. -/
def pendingOrderOf (customerID : String) : Order :=
  { ID := NilObjectID, CustomerID := customerID, Date := { unixNano := 0, offsetSec := 0 },
    Status := "pending", Products := [] }

/-! # Theorems -/

/-! ## Lemmas on the table -/

theorem CountMap.get_put_same (m : CountMap) (k : String) (v : Int) :
    (m.put k v).get k = v := by
  induction m with
  | nil => simp [CountMap.put, CountMap.get]
  | cons hd tl ih =>
    obtain ⟨k', v'⟩ := hd
    by_cases h : k' = k
    · simp [CountMap.put, CountMap.get, h]
    · simp [CountMap.put, CountMap.get, h, ih]

theorem CountMap.get_put_other (m : CountMap) (k k2 : String) (v : Int) (hne : k2 ≠ k) :
    (m.put k v).get k2 = m.get k2 := by
  induction m with
  | nil => simp [CountMap.put, CountMap.get, Ne.symm hne]
  | cons hd tl ih =>
    obtain ⟨k', v'⟩ := hd
    by_cases h : k' = k
    · subst h
      simp [CountMap.put, CountMap.get, Ne.symm hne]
    · by_cases h2 : k' = k2
      · subst h2
        simp [CountMap.put, CountMap.get, hne]
      · simp [CountMap.put, CountMap.get, h, h2, ih]

theorem wrapInt64_of_inInt64 (x : Int) (h : InInt64 x) : wrapInt64 x = x := by
  unfold InInt64 at h
  unfold wrapInt64
  have h1 : (x + 2 ^ 63) % 2 ^ 64 = x + 2 ^ 63 := by
    apply Int.emod_eq_of_lt <;> omega
  omega

/-! ## Rate limiter: one run of the handler -/

theorem pendingFor_append (ip : String) (l1 l2 : List Timer) :
    pendingFor ip (l1 ++ l2) = pendingFor ip l1 + pendingFor ip l2 := by
  simp [pendingFor]

theorem pendingFor_cons (ip : String) (t : Timer) (l : List Timer) :
    pendingFor ip (t :: l) = (if t.ip = ip then 1 else 0) + pendingFor ip l := by
  by_cases h : t.ip = ip
  · simp [pendingFor, h]; omega
  · simp [pendingFor, h]

theorem pendingFor_eraseIdx (ip : String) (l : List Timer) (i : Nat) (t : Timer)
    (h : l[i]? = some t) :
    pendingFor ip (l.eraseIdx i) + (if t.ip = ip then 1 else 0) = pendingFor ip l := by
  induction l generalizing i with
  | nil => simp at h
  | cons hd tl ih =>
    cases i with
    | zero =>
      simp at h
      subst h
      simp [pendingFor_cons]
      omega
    | succ j =>
      simp at h
      have := ih j h
      simp [pendingFor_cons]
      omega

theorem limiterInv_init : LimiterInv LimiterState.init := by
  intro ip
  simp [LimiterState.init, CountMap.get, pendingFor]

theorem limiterInv_request (now : Nat) (ip : String) (st : LimiterState)
    (h : LimiterInv st) : LimiterInv (rateLimiterMiddleware now ip st).1 := by
  unfold rateLimiterMiddleware
  by_cases hc : 100 ≤ st.requestsPerIP.get ip
  · simpa [hc] using h
  · simp only [hc, if_false]
    intro k
    obtain ⟨hk, hk100⟩ := h k
    obtain ⟨hip, _⟩ := h ip
    have hw : wrapInt64 (st.requestsPerIP.get ip + 1) = st.requestsPerIP.get ip + 1 := by
      apply wrapInt64_of_inInt64
      unfold InInt64
      omega
    by_cases hkip : k = ip
    · subst hkip
      have h1 : pendingFor k [({ fireAt := now + minute, ip := k } : Timer)] = 1 := by
        simp [pendingFor]
      rw [CountMap.get_put_same, hw, pendingFor_append, h1]
      have hlt : st.requestsPerIP.get k < 100 := by omega
      constructor
      · push_cast; omega
      · omega
    · rw [CountMap.get_put_other _ _ _ _ hkip, pendingFor_append]
      have : pendingFor k [({ fireAt := now + minute, ip := ip } : Timer)] = 0 := by
        simp [pendingFor, Ne.symm hkip]
      omega

theorem limiterInv_timerFire (st : LimiterState) (i : Nat) (t : Timer)
    (ht : st.timers[i]? = some t) (h : LimiterInv st) :
    LimiterInv { requestsPerIP := timerFire t.ip st.requestsPerIP,
                 timers := st.timers.eraseIdx i } := by
  intro k
  obtain ⟨hk, hk100⟩ := h k
  obtain ⟨hip, hip100⟩ := h t.ip
  have he := pendingFor_eraseIdx k st.timers i t ht
  have het := pendingFor_eraseIdx t.ip st.timers i t ht
  simp only [if_true] at het
  have hw : wrapInt64 (st.requestsPerIP.get t.ip - 1) = st.requestsPerIP.get t.ip - 1 := by
    apply wrapInt64_of_inInt64
    unfold InInt64
    omega
  simp only [timerFire]
  by_cases hkip : k = t.ip
  · subst hkip
    simp only [if_true] at he
    rw [CountMap.get_put_same, hw]
    omega
  · have hne : ¬ t.ip = k := fun e => hkip e.symm
    simp only [hne, if_false] at he
    rw [CountMap.get_put_other _ _ _ _ hkip]
    omega

theorem limiterInv_step (st : LimiterState) (s : Step) (h : LimiterInv st) :
    LimiterInv (st.step s) := by
  cases s with
  | request now ip => exact limiterInv_request now ip st h
  | fire i =>
    cases ht : st.timers[i]? with
    | none => simpa [LimiterState.step, ht] using h
    | some t => simpa [LimiterState.step, ht] using limiterInv_timerFire st i t ht h

theorem limiterInv_run (steps : List Step) (st : LimiterState) (h : LimiterInv st) :
    LimiterInv (LimiterState.run steps st) := by
  induction steps generalizing st with
  | nil => simpa [LimiterState.run] using h
  | cons s rest ih =>
    simp only [LimiterState.run, List.foldl_cons]
    exact ih (st.step s) (limiterInv_step st s h)

/-- C1: one run of the handler.  At a count of 100 or more the request gets
429, the next handler is not called and neither the table nor the timer set
changes; below 100 the request is passed on, the count of its address grows by
exactly one, no other count changes, and exactly one timer for that address is
added, due one minute (60 s) later. -/
theorem rateLimiterMiddleware_step (now : Nat) (ip : String) (st : LimiterState)
    (hr : InInt64 (st.requestsPerIP.get ip)) :
    (100 ≤ st.requestsPerIP.get ip →
      rateLimiterMiddleware now ip st =
        (st, [Event.lock, Event.httpError 429 "Too many requests", Event.unlock]) ∧
      admitted (rateLimiterMiddleware now ip st).2 = false) ∧
    (st.requestsPerIP.get ip < 100 →
      admitted (rateLimiterMiddleware now ip st).2 = true ∧
      (rateLimiterMiddleware now ip st).1.requestsPerIP.get ip
        = st.requestsPerIP.get ip + 1 ∧
      (∀ other, other ≠ ip →
        (rateLimiterMiddleware now ip st).1.requestsPerIP.get other
          = st.requestsPerIP.get other) ∧
      (rateLimiterMiddleware now ip st).1.timers
        = st.timers ++ [{ fireAt := now + 60 * 1000000000, ip := ip }]) := by
  constructor
  · intro h
    simp [rateLimiterMiddleware, h, admitted]
  · intro h
    have hc : ¬ 100 ≤ st.requestsPerIP.get ip := by omega
    have hw : wrapInt64 (st.requestsPerIP.get ip + 1) = st.requestsPerIP.get ip + 1 := by
      apply wrapInt64_of_inInt64
      unfold InInt64 at *
      omega
    refine ⟨?_, ?_, ?_, ?_⟩
    · simp [rateLimiterMiddleware, hc, admitted]
    · simp only [rateLimiterMiddleware, hc, if_false, CountMap.get_put_same, hw]
    · intro other hne
      simp only [rateLimiterMiddleware, hc, if_false]
      exact CountMap.get_put_other _ _ _ _ hne
    · simp [rateLimiterMiddleware, hc, minute]

/-- Witness for C1: a fresh table and one request. -/
theorem rateLimiterMiddleware_step_witness :
    InInt64 (LimiterState.init.requestsPerIP.get "10.0.0.1:4000") ∧
    (LimiterState.init.requestsPerIP.get "10.0.0.1:4000" < 100 →
      admitted (rateLimiterMiddleware 5 "10.0.0.1:4000" LimiterState.init).2 = true ∧
      (rateLimiterMiddleware 5 "10.0.0.1:4000" LimiterState.init).1.requestsPerIP.get
          "10.0.0.1:4000"
        = LimiterState.init.requestsPerIP.get "10.0.0.1:4000" + 1 ∧
      (∀ other, other ≠ "10.0.0.1:4000" →
        (rateLimiterMiddleware 5 "10.0.0.1:4000" LimiterState.init).1.requestsPerIP.get other
          = LimiterState.init.requestsPerIP.get other) ∧
      (rateLimiterMiddleware 5 "10.0.0.1:4000" LimiterState.init).1.timers
        = LimiterState.init.timers ++ [{ fireAt := 5 + 60 * 1000000000, ip := "10.0.0.1:4000" }]) :=
  ⟨by decide, (rateLimiterMiddleware_step 5 "10.0.0.1:4000" LimiterState.init (by decide)).2⟩

/-- C2: from the empty table, after any finite sequence of requests and
firings of pending timers (a fired timer leaves the timer set), every count is
non-negative and equals the number of admitted requests of that address whose
decrement has not fired yet. -/
theorem count_nonneg_and_eq_pending (steps : List Step) (ip : String) :
    0 ≤ (LimiterState.run steps LimiterState.init).requestsPerIP.get ip ∧
    (LimiterState.run steps LimiterState.init).requestsPerIP.get ip
      = (pendingFor ip (LimiterState.run steps LimiterState.init).timers : Int) := by
  have h := limiterInv_run steps LimiterState.init limiterInv_init ip
  refine ⟨?_, h.1⟩
  rw [h.1]
  exact Int.ofNat_nonneg _

/-! ## Rate limiter: timed runs -/

theorem timerFire_get (ip k : String) (m : CountMap) (h1 : 1 ≤ m.get ip)
    (h2 : m.get ip ≤ 100) :
    (timerFire ip m).get k = m.get k - (if ip = k then 1 else 0) := by
  have hw : wrapInt64 (m.get ip - 1) = m.get ip - 1 := by
    apply wrapInt64_of_inInt64
    unfold InInt64
    omega
  unfold timerFire
  by_cases hk : ip = k
  · subst hk
    simp [CountMap.get_put_same, hw]
  · have hne : k ≠ ip := fun e => hk e.symm
    simp [CountMap.get_put_other _ _ _ _ hne, hk]

theorem hasRun_le (now : Nat) (ranFirst : List Nat) (i : Nat) (t : Timer)
    (h : hasRun now ranFirst i t = true) : t.fireAt ≤ now := by
  unfold hasRun at h
  simp only [Bool.or_eq_true, Bool.and_eq_true, decide_eq_true_eq] at h
  omega

theorem hasRun_of_lt (now : Nat) (ranFirst : List Nat) (i : Nat) (t : Timer)
    (h : t.fireAt < now) : hasRun now ranFirst i t = true := by
  unfold hasRun
  simp [h]

theorem fireTable_inv (now : Nat) (ranFirst : List Nat) (l : List Timer) (i : Nat)
    (m : CountMap) (c : String → Nat)
    (h : ∀ k, m.get k = ((pendingFor k l + c k : Nat) : Int) ∧ pendingFor k l + c k ≤ 100) :
    ∀ k, (fireTable now ranFirst i l m).get k
        = ((pendingFor k (keepTimers now ranFirst i l) + c k : Nat) : Int) ∧
      pendingFor k (keepTimers now ranFirst i l) + c k ≤ 100 := by
  induction l generalizing i m c with
  | nil => simpa [fireTable, keepTimers, pendingFor] using h
  | cons t tl ih =>
    by_cases hd : hasRun now ranFirst i t = true
    · simp only [fireTable, keepTimers, hd, if_true]
      apply ih (i + 1) (timerFire t.ip m) c
      intro k
      obtain ⟨hk, hk100⟩ := h k
      obtain ⟨ht, ht100⟩ := h t.ip
      rw [pendingFor_cons] at hk hk100 ht ht100
      simp only [if_true] at ht ht100
      rw [timerFire_get t.ip k m (by omega) (by omega)]
      by_cases e : t.ip = k
      · simp only [e, if_true] at hk hk100 ⊢
        constructor <;> omega
      · simp only [e, if_false] at hk hk100 ⊢
        constructor <;> omega
    · simp only [fireTable, keepTimers, hd, Bool.false_eq_true, if_false]
      have := ih (i + 1) m (fun k => c k + (if t.ip = k then 1 else 0)) (by
        intro k
        obtain ⟨hk, hk100⟩ := h k
        rw [pendingFor_cons] at hk hk100
        beta_reduce
        constructor
        · rw [hk]; congr 1; omega
        · omega)
      intro k
      obtain ⟨a, b⟩ := this k
      beta_reduce at a b
      rw [pendingFor_cons]
      constructor
      · rw [a]; congr 1; omega
      · omega

theorem keepTimers_sublist (now : Nat) (ranFirst : List Nat) (l : List Timer) (i : Nat) :
    (keepTimers now ranFirst i l).Sublist l := by
  induction l generalizing i with
  | nil => simp [keepTimers]
  | cons t tl ih =>
    by_cases hd : hasRun now ranFirst i t = true
    · simp only [keepTimers, hd, if_true]
      exact (ih (i + 1)).cons t
    · simp only [keepTimers, hd, Bool.false_eq_true, if_false]
      exact (ih (i + 1)).cons₂ t

theorem keepTimers_ge (now : Nat) (ranFirst : List Nat) (l : List Timer) (i : Nat) :
    ∀ t ∈ keepTimers now ranFirst i l, now ≤ t.fireAt := by
  induction l generalizing i with
  | nil => simp [keepTimers]
  | cons t tl ih =>
    by_cases hd : hasRun now ranFirst i t = true
    · simp only [keepTimers, hd, if_true]
      exact ih (i + 1)
    · simp only [keepTimers, hd, Bool.false_eq_true, if_false]
      intro x hx
      rcases List.mem_cons.mp hx with rfl | hx
      · by_contra hlt
        exact hd (hasRun_of_lt now ranFirst i x (by omega))
      · exact ih (i + 1) x hx

theorem keepTimers_filter (now : Nat) (ranFirst : List Nat) (l : List Timer) (i T : Nat)
    (hT : now ≤ T) :
    (keepTimers now ranFirst i l).filter (fun x => T < x.fireAt)
      = l.filter (fun x => T < x.fireAt) := by
  induction l generalizing i with
  | nil => simp [keepTimers]
  | cons t tl ih =>
    by_cases hd : hasRun now ranFirst i t = true
    · have hle := hasRun_le now ranFirst i t hd
      have hn : ¬ T < t.fireAt := by omega
      simp only [keepTimers, hd, if_true, List.filter_cons, hn, decide_False,
        Bool.false_eq_true, if_false]
      exact ih (i + 1)
    · simp only [keepTimers, hd, Bool.false_eq_true, if_false, List.filter_cons, ih (i + 1)]

theorem limiterInv_fireDue (now : Nat) (ranFirst : List Nat) (st : LimiterState)
    (h : LimiterInv st) : LimiterInv (fireDue now ranFirst st) := by
  intro k
  have := fireTable_inv now ranFirst st.timers 0 st.requestsPerIP (fun _ => 0)
    (by intro k; simpa using h k) k
  simpa [fireDue] using this

theorem limiterInv_handleAt (now : Nat) (ranFirst : List Nat) (ip : String)
    (st : LimiterState) (h : LimiterInv st) : LimiterInv (handleAt now ranFirst ip st).1 :=
  limiterInv_request now ip _ (limiterInv_fireDue now ranFirst st h)

theorem runTimed_append (reqs : List Arrival) (r : Arrival) :
    runTimed (reqs ++ [r]) = timedStep (runTimed reqs) r := by
  simp [runTimed, List.foldl_append]

theorem limiterInv_runTimed (reqs : List Arrival) : LimiterInv (runTimed reqs).1 := by
  induction reqs using List.reverseRecOn with
  | nil => simpa [runTimed] using limiterInv_init
  | append_singleton l r ih =>
    rw [runTimed_append]
    exact limiterInv_handleAt r.time r.ranFirst r.ip _ ih

theorem handleAt_timers (t : Nat) (ranFirst : List Nat) (ip : String) (st : LimiterState) :
    (handleAt t ranFirst ip st).1.timers
      = keepTimers t ranFirst 0 st.timers ++
        (if admitted (handleAt t ranFirst ip st).2 then [{ fireAt := t + minute, ip := ip }]
          else []) := by
  have ht : (fireDue t ranFirst st).timers = keepTimers t ranFirst 0 st.timers := rfl
  rw [← ht]
  unfold handleAt rateLimiterMiddleware
  by_cases hc : 100 ≤ (fireDue t ranFirst st).requestsPerIP.get ip
  · simp [hc, admitted]
  · simp [hc, admitted]

theorem handleAt_admitted_iff (t : Nat) (ranFirst : List Nat) (ip : String)
    (st : LimiterState) :
    admitted (handleAt t ranFirst ip st).2 = true
      ↔ (fireDue t ranFirst st).requestsPerIP.get ip < 100 := by
  unfold handleAt rateLimiterMiddleware
  by_cases hc : 100 ≤ (fireDue t ranFirst st).requestsPerIP.get ip
  · simp [hc, admitted]
  · simp [hc, admitted]; omega

theorem timeOrdered_append (reqs : List Arrival) (r : Arrival)
    (h : TimeOrdered (reqs ++ [r])) :
    TimeOrdered reqs ∧ ∀ a ∈ reqs, a.time ≤ r.time := by
  unfold TimeOrdered at *
  rw [List.pairwise_append] at h
  refine ⟨h.1, fun a ha => h.2.2 a ha r (by simp)⟩

theorem runTimed_log_time (reqs : List Arrival) (T : Nat) (h : ∀ r ∈ reqs, r.time ≤ T) :
    ∀ a ∈ (runTimed reqs).2, a.time ≤ T := by
  induction reqs using List.reverseRecOn with
  | nil => simp [runTimed]
  | append_singleton l r ih =>
    rw [runTimed_append]
    intro a ha
    have hl : ∀ x ∈ l, x.time ≤ T := fun x hx => h x (by simp [hx])
    have hr : r.time ≤ T := h r (by simp)
    unfold timedStep at ha
    by_cases hadm : admitted (handleAt r.time r.ranFirst r.ip (runTimed l).1).2 = true
    · simp only [hadm, if_true, List.mem_append, List.mem_singleton] at ha
      rcases ha with ha | ha
      · exact ih hl a ha
      · rw [ha]; exact hr
    · simp only [hadm] at ha
      exact ih hl a ha

/-- The pending timers are timers of logged admissions, and those due after any
instant not before the last arrival are exactly the logged ones due after it. -/
theorem runTimed_timers (reqs : List Arrival) (hord : TimeOrdered reqs) :
    (runTimed reqs).1.timers.Sublist ((runTimed reqs).2.map Request.timer) ∧
    ∀ T, (∀ r ∈ reqs, r.time ≤ T) →
      (runTimed reqs).1.timers.filter (fun x => T < x.fireAt)
        = ((runTimed reqs).2.map Request.timer).filter (fun x => T < x.fireAt) := by
  induction reqs using List.reverseRecOn with
  | nil => simp [runTimed, LimiterState.init]
  | append_singleton l r ih =>
    obtain ⟨hl, hlr⟩ := timeOrdered_append l r hord
    obtain ⟨ih1, ih2⟩ := ih hl
    rw [runTimed_append]
    unfold timedStep
    simp only [handleAt_timers]
    constructor
    · by_cases hadm : admitted (handleAt r.time r.ranFirst r.ip (runTimed l).1).2 = true
      · simp only [hadm, if_true, List.map_append, List.map_cons, List.map_nil]
        exact List.Sublist.append ((keepTimers_sublist _ _ _ _).trans ih1)
          (List.Sublist.refl _)
      · simp only [hadm, Bool.false_eq_true, if_false, List.append_nil]
        exact (keepTimers_sublist _ _ _ _).trans ih1
    · intro T hT
      have hr : r.time ≤ T := hT r (by simp)
      have hl2 : ∀ x ∈ l, x.time ≤ T := fun x hx => hT x (by simp [hx])
      rw [List.filter_append, keepTimers_filter _ _ _ _ _ hr, ih2 T hl2]
      by_cases hadm : admitted (handleAt r.time r.ranFirst r.ip (runTimed l).1).2 = true
      · simp only [hadm, if_true, List.map_append, List.filter_append, List.map_cons,
          List.map_nil]
        rfl
      · simp [hadm]

theorem pendingFor_sublist (ip : String) (l1 l2 : List Timer) (h : l1.Sublist l2) :
    pendingFor ip l1 ≤ pendingFor ip l2 :=
  (h.filter _).length_le

theorem pendingFor_log_within (ip : String) (log : List Request) (now : Nat) :
    pendingFor ip ((log.map Request.timer).filter (fun x => now < x.fireAt))
      = admittedWithin log ip now := by
  unfold pendingFor admittedWithin
  rw [List.filter_map, List.filter_map, List.length_map, List.filter_filter]
  congr 1
  apply List.filter_congr
  intro a _
  simp [Request.timer]

theorem pendingFor_log_upTo (ip : String) (log : List Request) (now : Nat) :
    pendingFor ip ((log.map Request.timer).filter (fun x => now ≤ x.fireAt))
      = admittedUpTo log ip now := by
  unfold pendingFor admittedUpTo
  rw [List.filter_map, List.filter_map, List.length_map, List.filter_filter]
  congr 1
  apply List.filter_congr
  intro a _
  simp [Request.timer]

/-- Whatever the race, the count the handler reads lies between the admissions
less than a minute old and the admissions at most a minute old. -/
theorem count_bounds (reqs : List Arrival) (hord : TimeOrdered reqs) (now : Nat)
    (hnow : ∀ r ∈ reqs, r.time ≤ now) (ranFirst : List Nat) (ip : String) :
    (admittedWithin (runTimed reqs).2 ip now : Int)
      ≤ (fireDue now ranFirst (runTimed reqs).1).requestsPerIP.get ip ∧
    (fireDue now ranFirst (runTimed reqs).1).requestsPerIP.get ip
      ≤ (admittedUpTo (runTimed reqs).2 ip now : Int) := by
  obtain ⟨hinv, _⟩ := limiterInv_fireDue now ranFirst _ (limiterInv_runTimed reqs) ip
  obtain ⟨hsub, hfil⟩ := runTimed_timers reqs hord
  have hk : (fireDue now ranFirst (runTimed reqs).1).timers
      = keepTimers now ranFirst 0 (runTimed reqs).1.timers := rfl
  rw [hinv, hk]
  constructor
  · have h1 : pendingFor ip ((keepTimers now ranFirst 0 (runTimed reqs).1.timers).filter
        (fun x => now < x.fireAt)) = admittedWithin (runTimed reqs).2 ip now := by
      rw [keepTimers_filter _ _ _ _ _ (le_refl now), hfil now hnow, pendingFor_log_within]
    have h2 := pendingFor_sublist ip _ _
      (List.filter_sublist (p := fun x => decide (now < x.fireAt))
        (keepTimers now ranFirst 0 (runTimed reqs).1.timers))
    rw [h1] at h2
    exact_mod_cast h2
  · have hself : (keepTimers now ranFirst 0 (runTimed reqs).1.timers).filter
        (fun x => now ≤ x.fireAt) = keepTimers now ranFirst 0 (runTimed reqs).1.timers := by
      apply List.filter_eq_self.mpr
      intro x hx
      simpa using keepTimers_ge now ranFirst _ 0 x hx
    have h3 : ((keepTimers now ranFirst 0 (runTimed reqs).1.timers).filter
        (fun x => now ≤ x.fireAt)).Sublist
        (((runTimed reqs).2.map Request.timer).filter (fun x => now ≤ x.fireAt)) :=
      ((keepTimers_sublist _ _ _ _).trans hsub).filter _
    rw [hself] at h3
    have h4 := pendingFor_sublist ip _ _ h3
    rw [pendingFor_log_upTo] at h4
    exact_mod_cast h4

theorem filter_length_lt {α : Type} (p q : α → Bool) (l : List α)
    (himp : ∀ a ∈ l, p a = true → q a = true) (x : α) (hx : x ∈ l) (hq : q x = true)
    (hp : p x = false) : (l.filter p).length < (l.filter q).length := by
  induction l with
  | nil => simp at hx
  | cons a tl ih =>
    have hmono : (tl.filter p).length ≤ (tl.filter q).length := by
      rw [← List.countP_eq_length_filter, ← List.countP_eq_length_filter]
      exact List.countP_mono_left (fun y hy h => himp y (List.mem_cons_of_mem a hy) h)
    rcases List.mem_cons.mp hx with h | h
    · subst h
      simp only [List.filter_cons, hq, hp, if_true, Bool.false_eq_true, if_false,
        List.length_cons]
      omega
    · have := ih (fun y hy => himp y (List.mem_cons_of_mem a hy)) h
      by_cases hpa : p a = true
      · have hqa := himp a (List.mem_cons_self a tl) hpa
        simp only [List.filter_cons, hpa, hqa, if_true, List.length_cons]
        omega
      · by_cases hqa : q a = true
        · simp only [List.filter_cons, hpa, hqa, if_true, Bool.false_eq_true, if_false,
            List.length_cons]
          omega
        · simp only [List.filter_cons, hpa, hqa, Bool.false_eq_true, if_false]
          exact this

theorem filter_length_mono {α : Type} (p q : α → Bool) (l : List α)
    (himp : ∀ a ∈ l, p a = true → q a = true) :
    (l.filter p).length ≤ (l.filter q).length := by
  rw [← List.countP_eq_length_filter, ← List.countP_eq_length_filter]
  exact List.countP_mono_left himp

theorem windowCount_snoc (log : List Request) (x : Request) (ip : String) (T : Nat) :
    windowCount (log ++ [x]) ip T
      = windowCount log ip T
        + (if x.ip = ip ∧ x.time ≤ T ∧ T < x.time + minute then 1 else 0) := by
  unfold windowCount
  by_cases h : x.ip = ip ∧ x.time ≤ T ∧ T < x.time + minute
  · simp [List.filter_append, List.filter_cons, h]
  · simp [List.filter_append, List.filter_cons, h]

/-- In a timed run no more than 100 requests of one address are admitted
within any 60-second window, whatever the outcome of the races. -/
theorem windowCount_le (reqs : List Arrival) (hord : TimeOrdered reqs) (ip : String)
    (T : Nat) : windowCount (runTimed reqs).2 ip T ≤ 100 := by
  induction reqs using List.reverseRecOn with
  | nil => simp [runTimed, windowCount]
  | append_singleton l r ih =>
    obtain ⟨hl, hlr⟩ := timeOrdered_append l r hord
    have ih' := ih hl
    rw [runTimed_append]
    unfold timedStep
    by_cases hadm : admitted (handleAt r.time r.ranFirst r.ip (runTimed l).1).2 = true
    · simp only [hadm, if_true]
      rw [windowCount_snoc]
      by_cases hin : r.ip = ip ∧ r.time ≤ T ∧ T < r.time + minute
      · simp only [hin, and_self, if_true]
        obtain ⟨hip, hrT, _⟩ := hin
        have hlt := (handleAt_admitted_iff r.time r.ranFirst r.ip _).mp hadm
        obtain ⟨hlow, _⟩ := count_bounds l hl r.time hlr r.ranFirst r.ip
        have hlog := runTimed_log_time l r.time hlr
        have h1 : windowCount (runTimed l).2 ip T ≤ admittedWithin (runTimed l).2 ip r.time := by
          unfold windowCount admittedWithin
          apply filter_length_mono
          intro a ha h
          simp only [decide_eq_true_eq] at h ⊢
          have := hlog a ha
          exact ⟨h.1, by omega⟩
        rw [hip] at hlow hlt
        omega
      · simp only [hin, if_false]
        exact ih'
    · simp only [hadm, Bool.false_eq_true, if_false]
      exact ih'

theorem keepTimers_all (now : Nat) (ranFirst : List Nat) (l : List Timer) (i : Nat)
    (h : ∀ j, i ≤ j → j < i + l.length → j ∈ ranFirst) :
    keepTimers now ranFirst i l = l.filter (fun x => now < x.fireAt) := by
  induction l generalizing i with
  | nil => simp [keepTimers]
  | cons t tl ih =>
    have hi : i ∈ ranFirst := h i (le_refl i) (by simp)
    have htl := ih (i + 1) (fun j h1 h2 => h j (by omega) (by simp at h2 ⊢; omega))
    by_cases hlt : now < t.fireAt
    · have hr : hasRun now ranFirst i t = false := by
        unfold hasRun
        have h1 : ¬ t.fireAt < now := by omega
        have h2 : ¬ t.fireAt = now := by omega
        simp [h1, h2]
      simp only [keepTimers, hr, Bool.false_eq_true, if_false, List.filter_cons, hlt,
        decide_True, if_true, htl]
    · have hr : hasRun now ranFirst i t = true := by
        unfold hasRun
        by_cases h1 : t.fireAt < now
        · simp [h1]
        · have h2 : t.fireAt = now := by omega
          simp [h2, hi]
      simp only [keepTimers, hr, if_true, List.filter_cons, hlt, decide_False,
        Bool.false_eq_true, if_false, htl]

/-- C3 (amended): in the timed model (each decrement is due exactly one minute
after its admission, and a decrement due at the very instant a request arrives
may run before or after it), for arrivals in time order from program start: the
count of an address never exceeds 100 and no more than 100 of its requests are
admitted within any 60-second window; a request arriving when 100 requests of
its address were admitted within the last 60 seconds is rejected; and a request
arriving more than 60 seconds after an admission of its address is admitted,
provided no request of that address was admitted since that admission's
decrement fell due; at exactly 60 seconds it is admitted when the decrements due
then ran first. -/
theorem sliding_window (reqs : List Arrival) (hord : TimeOrdered reqs) (now : Nat)
    (ranFirst : List Nat) (ip : String) (hnow : ∀ r ∈ reqs, r.time ≤ now) :
    (runTimed reqs).1.requestsPerIP.get ip ≤ 100 ∧
    (handleAt now ranFirst ip (runTimed reqs).1).1.requestsPerIP.get ip ≤ 100 ∧
    (∀ T, windowCount (runTimed reqs).2 ip T ≤ 100) ∧
    (100 ≤ admittedWithin (runTimed reqs).2 ip now →
      admitted (handleAt now ranFirst ip (runTimed reqs).1).2 = false) ∧
    (∀ first, first ∈ (runTimed reqs).2 → first.ip = ip →
      (∀ a ∈ (runTimed reqs).2, a.ip = ip → a.time < first.time + 60 * 1000000000) →
      first.time + 60 * 1000000000 < now →
      admitted (handleAt now ranFirst ip (runTimed reqs).1).2 = true) ∧
    (∀ first, first ∈ (runTimed reqs).2 → first.ip = ip →
      (∀ a ∈ (runTimed reqs).2, a.ip = ip → a.time < first.time + 60 * 1000000000) →
      first.time + 60 * 1000000000 ≤ now →
      (∀ j, j < (runTimed reqs).1.timers.length → j ∈ ranFirst) →
      admitted (handleAt now ranFirst ip (runTimed reqs).1).2 = true) := by
  have hinv := limiterInv_runTimed reqs ip
  have hinv2 := limiterInv_handleAt now ranFirst ip _ (limiterInv_runTimed reqs) ip
  obtain ⟨hlow, hup⟩ := count_bounds reqs hord now hnow ranFirst ip
  have hmin : minute = 60 * 1000000000 := rfl
  refine ⟨by omega, by omega, fun T => windowCount_le reqs hord ip T, ?_, ?_, ?_⟩
  · intro h100
    cases hadm : admitted (handleAt now ranFirst ip (runTimed reqs).1).2 with
    | false => rfl
    | true =>
      have := (handleAt_admitted_iff now ranFirst ip _).mp hadm
      omega
  · intro first hmem hip hsince hexp
    apply (handleAt_admitted_iff now ranFirst ip _).mpr
    have hw := windowCount_le reqs hord ip (first.time + minute - 1)
    have hlt : admittedUpTo (runTimed reqs).2 ip now
        < windowCount (runTimed reqs).2 ip (first.time + minute - 1) := by
      unfold admittedUpTo windowCount
      apply filter_length_lt _ _ _ _ first hmem
      · simp only [decide_eq_true_eq]
        exact ⟨hip, by omega, by omega⟩
      · simp only [decide_eq_false_iff_not]
        intro hh; omega
      · intro a ha h
        simp only [decide_eq_true_eq] at h ⊢
        have := hsince a ha h.1
        exact ⟨h.1, by omega, by omega⟩
    omega
  · intro first hmem hip hsince hexp hall
    apply (handleAt_admitted_iff now ranFirst ip _).mpr
    have hw := windowCount_le reqs hord ip (first.time + minute - 1)
    have hkeep : (fireDue now ranFirst (runTimed reqs).1).timers
        = (runTimed reqs).1.timers.filter (fun x => now < x.fireAt) :=
      keepTimers_all now ranFirst _ 0 (fun j _ h2 => hall j (by omega))
    obtain ⟨hcnt, _⟩ := limiterInv_fireDue now ranFirst _ (limiterInv_runTimed reqs) ip
    rw [hkeep, (runTimed_timers reqs hord).2 now hnow, pendingFor_log_within] at hcnt
    have hlt : admittedWithin (runTimed reqs).2 ip now
        < windowCount (runTimed reqs).2 ip (first.time + minute - 1) := by
      unfold admittedWithin windowCount
      apply filter_length_lt _ _ _ _ first hmem
      · simp only [decide_eq_true_eq]
        exact ⟨hip, by omega, by omega⟩
      · simp only [decide_eq_false_iff_not]
        intro hh; omega
      · intro a ha h
        simp only [decide_eq_true_eq] at h ⊢
        have := hsince a ha h.1
        exact ⟨h.1, by omega, by omega⟩
    omega

/-- C3 (as stated, refuted): after 100 admissions at instant 0, a request
arriving exactly 60 seconds later is rejected when the handler takes the lock
before the decrements due at that instant, so a request arriving 60 seconds
after the first of those admissions is not always admitted; it is admitted
when the decrements ran first. -/
theorem rejected_at_exactly_60s :
    TimeOrdered (burst 100 "10.0.0.1:4000") ∧
    (runTimed (burst 100 "10.0.0.1:4000")).2
      = List.replicate 100 { time := 0, ip := "10.0.0.1:4000" } ∧
    admitted (handleAt (0 + 60 * 1000000000) [] "10.0.0.1:4000"
      (runTimed (burst 100 "10.0.0.1:4000")).1).2 = false ∧
    admitted (handleAt (0 + 60 * 1000000000) (List.range 100) "10.0.0.1:4000"
      (runTimed (burst 100 "10.0.0.1:4000")).1).2 = true :=
  ⟨by decide!, by decide!, by decide!, by decide!⟩

/-- Witness for C3 (amended): 100 admissions at instant 0; the request 59
seconds later is rejected; after another address's request at 61 seconds, the
request at 62 seconds is admitted. -/
theorem sliding_window_witness :
    TimeOrdered (burst 100 "10.0.0.1:4000") ∧
    TimeOrdered (burst 100 "10.0.0.1:4000" ++
      [{ time := 59000000000, ip := "10.0.0.1:4000", ranFirst := [] },
       { time := 61000000000, ip := "10.0.0.2:5000", ranFirst := [] }]) ∧
    admitted (handleAt 59000000000 [] "10.0.0.1:4000"
      (runTimed (burst 100 "10.0.0.1:4000")).1).2 = false ∧
    admitted (handleAt 62000000000 [] "10.0.0.1:4000"
      (runTimed (burst 100 "10.0.0.1:4000" ++
        [{ time := 59000000000, ip := "10.0.0.1:4000", ranFirst := [] },
         { time := 61000000000, ip := "10.0.0.2:5000", ranFirst := [] }])).1).2 = true :=
by
  have h1 : TimeOrdered (burst 100 "10.0.0.1:4000") := by decide!
  have h2 : ∀ r ∈ burst 100 "10.0.0.1:4000", r.time ≤ 59000000000 := by decide!
  have h3 : 100 ≤ admittedWithin (runTimed (burst 100 "10.0.0.1:4000")).2 "10.0.0.1:4000"
      59000000000 := by decide!
  have g1 : TimeOrdered (burst 100 "10.0.0.1:4000" ++
      [{ time := 59000000000, ip := "10.0.0.1:4000", ranFirst := [] },
       { time := 61000000000, ip := "10.0.0.2:5000", ranFirst := [] }]) := by decide!
  have g2 : ∀ r ∈ burst 100 "10.0.0.1:4000" ++
      [{ time := 59000000000, ip := "10.0.0.1:4000", ranFirst := [] },
       { time := 61000000000, ip := "10.0.0.2:5000", ranFirst := [] }],
      r.time ≤ 62000000000 := by decide!
  have g3 : ({ time := 0, ip := "10.0.0.1:4000" } : Request) ∈
      (runTimed (burst 100 "10.0.0.1:4000" ++
        [{ time := 59000000000, ip := "10.0.0.1:4000", ranFirst := [] },
         { time := 61000000000, ip := "10.0.0.2:5000", ranFirst := [] }])).2 := by decide!
  have g4 : ∀ a ∈ (runTimed (burst 100 "10.0.0.1:4000" ++
        [{ time := 59000000000, ip := "10.0.0.1:4000", ranFirst := [] },
         { time := 61000000000, ip := "10.0.0.2:5000", ranFirst := [] }])).2,
      a.ip = "10.0.0.1:4000" →
      a.time < ({ time := 0, ip := "10.0.0.1:4000" } : Request).time + 60 * 1000000000 := by
    decide!
  exact ⟨h1, g1,
    (sliding_window _ h1 59000000000 [] "10.0.0.1:4000" h2).2.2.2.1 h3,
    (sliding_window _ g1 62000000000 [] "10.0.0.1:4000" g2).2.2.2.2.1 _ g3 rfl g4
      (by decide)⟩

/-! ## Rate limiter: extent of the critical section -/

/-- C8 (evaluation): on an admitted request the deferred `Unlock` is the last
action of the handler, after the call of the next handler, so the mutex is held
across the downstream handling. -/
theorem unlock_after_serveNext :
    (rateLimiterMiddleware 5 "10.0.0.1:4000" LimiterState.init).2
      = [Event.lock, Event.increment "10.0.0.1:4000",
         Event.afterFunc (60 * 1000000000) "10.0.0.1:4000", Event.serveNext, Event.unlock] ∧
    List.indexOf Event.serveNext (rateLimiterMiddleware 5 "10.0.0.1:4000" LimiterState.init).2
      < List.indexOf Event.unlock (rateLimiterMiddleware 5 "10.0.0.1:4000" LimiterState.init).2 := by
  decide

/-! ## Discount engine: the loops -/

theorem updateAt_getElem? {α : Type} (l : List α) (i j : Nat) (f : α → α) :
    (updateAt l i f)[j]? = if j = i then l[j]?.map f else l[j]? := by
  induction l generalizing i j with
  | nil => simp [updateAt]
  | cons a rest ih =>
    cases i with
    | zero =>
      cases j with
      | zero => simp [updateAt]
      | succ j => simp [updateAt]
    | succ i =>
      cases j with
      | zero => simp [updateAt]
      | succ j => simp [updateAt, ih]

theorem loop_getElem? {α : Type} (f : α → α) (l : List α) (n j : Nat) :
    ((List.range n).foldl (fun acc i => updateAt acc i f) l)[j]?
      = if j < n then l[j]?.map f else l[j]? := by
  induction n with
  | zero => simp
  | succ n ih =>
    rw [List.range_succ, List.foldl_append]
    simp only [List.foldl_cons, List.foldl_nil]
    rw [updateAt_getElem?, ih]
    by_cases h1 : j = n
    · subst h1
      simp
    · by_cases h2 : j < n
      · have : j < n + 1 := by omega
        simp [h1, h2, this]
      · have : ¬ j < n + 1 := by omega
        simp [h1, h2, this]

theorem loop_eq_map {α : Type} (f : α → α) (l : List α) :
    (List.range l.length).foldl (fun acc i => updateAt acc i f) l = l.map f := by
  apply List.ext_getElem?
  intro j
  rw [loop_getElem?]
  by_cases h : j < l.length
  · simp [h]
  · have h2 : l.length ≤ j := by omega
    simp [h, List.getElem?_eq_none h2]

theorem orderLoop (g : Product → Product) (order : Order) (n : Nat) :
    (List.range n).foldl (fun o i => { o with Products := updateAt o.Products i g }) order
      = { order with
          Products := ((List.range n).foldl (fun acc i => updateAt acc i g) order.Products) } := by
  induction n with
  | zero => simp
  | succ n ih =>
    rw [List.range_succ, List.foldl_append, List.foldl_append, ih]
    simp

theorem applyPercentageDiscount_eq (fused : Bool) (order : Order) (percentage : F64) :
    applyPercentageDiscount fused order percentage
      = { order with Products := order.Products.map (Product.discounted fused percentage) } := by
  unfold applyPercentageDiscount
  rw [orderLoop, loop_eq_map]

theorem applyCategoryDiscount_eq (fused : Bool) (order : Order) (category : String)
    (percentage : F64) :
    applyCategoryDiscount fused order category percentage
      = { order with Products := (order.Products.map
          (fun p => if contains p.Categories category then p.discounted fused percentage
            else p)) } := by
  unfold applyCategoryDiscount
  rw [orderLoop, loop_eq_map]

theorem contains_iff (slice : List String) (str : String) :
    contains slice str = true ↔ str ∈ slice := by
  induction slice with
  | nil => simp [contains]
  | cons item rest ih =>
    by_cases h : item = str
    · simp [contains, h]
    · have h2 : ¬ str = item := fun e => h e.symm
      simp [contains, h, h2, ih]

theorem weekday_lt (t : Time) : t.Weekday < 7 := by
  unfold Time.Weekday
  omega

/-! ## Discount engine: the three strategies -/

theorem rate10_nearest :
    (10 * rate10.mag ≤ 2 ^ 1074 + 5 * 2 ^ rate10.shift ∧
      2 ^ 1074 ≤ 10 * rate10.mag + 5 * 2 ^ rate10.shift) ∧
    (20 * rate5.mag ≤ 2 ^ 1074 + 10 * 2 ^ rate5.shift ∧
      2 ^ 1074 ≤ 20 * rate5.mag + 10 * 2 ^ rate5.shift) :=
  ⟨⟨by decide!, by decide!⟩, ⟨by decide!, by decide!⟩⟩

theorem ofNat_bits :
    F64.ofNat 100 = ⟨false, 0x405, 0x9000000000000⟩ ∧
    F64.ofNat 50 = ⟨false, 0x404, 0x9000000000000⟩ ∧
    F64.ofNat 90 = ⟨false, 0x405, 0x6800000000000⟩ ∧
    F64.ofNat 45 = ⟨false, 0x404, 0x6800000000000⟩ ∧
    F64.ofNat 135 = ⟨false, 0x406, 0x0E00000000000⟩ ∧
    F64.ofNegNat 100 = ⟨true, 0x405, 0x9000000000000⟩ ∧
    F64.ofNegNat 90 = ⟨true, 0x405, 0x6800000000000⟩ :=
  ⟨by decide!, by decide!, by decide!, by decide!, by decide!, by decide!, by decide!⟩

theorem discountPrice_100 (fused : Bool) :
    discountPrice fused (F64.ofNat 100) rate10 = F64.ofNat 90 := by
  cases fused <;> decide!

theorem discountPrice_50 (fused : Bool) :
    discountPrice fused (F64.ofNat 50) rate10 = F64.ofNat 45 := by
  cases fused <;> decide!

theorem total_90_45 :
    fadd (fadd (F64.zero false) (F64.ofNat 90)) (F64.ofNat 45) = F64.ofNat 135 := by
  decide!

theorem applyDiscount_IC003 (fused : Bool) (o : Order) (percent : Int) (rules : String) :
    applyDiscount fused o ⟨"IC003", percent, rules⟩
      = { o with Products := (o.Products.map
            (fun p => { p with Price := discountPrice fused p.Price rate10 })) } := by
  simp only [applyDiscount, if_true, applyPercentageDiscount_eq]
  rfl

theorem two_items (fused : Bool) (order : Order) (percent : Int) (rules : String)
    (a b : Product) (x1 x2 y1 y2 t : F64)
    (h1 : discountPrice fused x1 rate10 = y1) (h2 : discountPrice fused x2 rate10 = y2)
    (ht : fadd (fadd (F64.zero false) y1) y2 = t) :
    (applyDiscount fused
        { order with Products := [{ a with Price := x1 }, { b with Price := x2 }] }
        ⟨"IC003", percent, rules⟩).Products
      = [{ a with Price := y1 }, { b with Price := y2 }] ∧
    CalculateTotalPrice (applyDiscount fused
        { order with Products := [{ a with Price := x1 }, { b with Price := x2 }] }
        ⟨"IC003", percent, rules⟩) = t := by
  rw [applyDiscount_IC003]
  subst h1 h2 ht
  constructor
  · simp only [List.map_cons, List.map_nil]
  · simp only [CalculateTotalPrice, List.map_cons, List.map_nil, List.foldl_cons,
      List.foldl_nil]

/-- C4: with code "IC003" every line item keeps its place and all its fields
but the price, which becomes `p - p * 0.1`; the number of items is unchanged;
`CalculateTotalPrice` afterwards is the running sum of the new prices; and an
order with prices 100.00 and 50.00 ends with prices 90.00 and 45.00 and total
135.00, with or without fusing of the multiplication and subtraction. -/
theorem applyDiscount_percentage_all (fused : Bool) (order : Order) (percent : Int)
    (rules : String) (a b : Product) :
    applyDiscount fused order ⟨"IC003", percent, rules⟩
      = { order with Products := (order.Products.map
            (fun p => { p with Price := discountPrice fused p.Price rate10 })) } ∧
    discountPrice false = (fun p r => fsub p (fmul p r)) ∧
    (applyDiscount fused order ⟨"IC003", percent, rules⟩).Products.length
      = order.Products.length ∧
    CalculateTotalPrice (applyDiscount fused order ⟨"IC003", percent, rules⟩)
      = (order.Products.map (fun p => discountPrice fused p.Price rate10)).foldl fadd
          (F64.zero false) ∧
    (applyDiscount fused
        { order with Products := [{ a with Price := F64.ofNat 100 },
                                  { b with Price := F64.ofNat 50 }] }
        ⟨"IC003", percent, rules⟩).Products
      = [{ a with Price := F64.ofNat 90 }, { b with Price := F64.ofNat 45 }] ∧
    CalculateTotalPrice (applyDiscount fused
        { order with Products := [{ a with Price := F64.ofNat 100 },
                                  { b with Price := F64.ofNat 50 }] }
        ⟨"IC003", percent, rules⟩) = F64.ofNat 135 := by
  refine ⟨applyDiscount_IC003 fused order percent rules, ?_, ?_, ?_,
    two_items fused order percent rules a b _ _ _ _ _ (discountPrice_100 fused)
      (discountPrice_50 fused) total_90_45⟩
  · funext p r
    simp [discountPrice]
  · rw [applyDiscount_IC003]; simp
  · rw [applyDiscount_IC003]
    simp only [CalculateTotalPrice, List.foldl_map]

/-- C5: with code "IC042" every line item whose `Categories` list contains
"electronic" gets the price `p - p * 0.05` and keeps its other fields; every
other line item is identical to what it was. -/
theorem applyDiscount_category (fused : Bool) (order : Order) (percent : Int)
    (rules : String) :
    applyDiscount fused order ⟨"IC042", percent, rules⟩
      = { order with Products := (order.Products.map
            (fun p => if "electronic" ∈ p.Categories
              then { p with Price := discountPrice fused p.Price rate5 } else p)) } ∧
    (∀ (i : Nat) (p : Product), order.Products[i]? = some p →
      (applyDiscount fused order ⟨"IC042", percent, rules⟩).Products[i]?
        = some (if "electronic" ∈ p.Categories
            then { p with Price := discountPrice fused p.Price rate5 } else p)) ∧
    (∀ slice str, contains slice str = true ↔ str ∈ slice) := by
  have hcode : applyDiscount fused order ⟨"IC042", percent, rules⟩
      = { order with Products := (order.Products.map
            (fun p => if "electronic" ∈ p.Categories
              then { p with Price := discountPrice fused p.Price rate5 } else p)) } := by
    have hne : ¬ ("IC042" = "IC003") := by decide
    simp only [applyDiscount, hne, if_false, if_true, applyCategoryDiscount_eq]
    congr 1
    apply List.map_congr_left
    intro p _
    by_cases h : "electronic" ∈ p.Categories
    · simp [h, (contains_iff _ _).mpr h, Product.discounted]
    · have h2 : contains p.Categories "electronic" = false := by
        cases hc : contains p.Categories "electronic" with
        | false => rfl
        | true => exact absurd ((contains_iff _ _).mp hc) h
      simp [h, h2]
  refine ⟨hcode, ?_, contains_iff⟩
  intro i p hp
  rw [hcode]
  simp [List.getElem?_map, hp]

/-- C6: with code "IC015" an order dated Monday to Friday is unchanged, and an
order dated Saturday or Sunday gets every price replaced by `p - p * 0.1`, the
result of the percentage-all strategy at that rate. -/
theorem applyDiscount_weekend (fused : Bool) (order : Order) (percent : Int)
    (rules : String) :
    order.Date.Weekday < 7 ∧
    ((1 ≤ order.Date.Weekday ∧ order.Date.Weekday ≤ 5) →
      applyDiscount fused order ⟨"IC015", percent, rules⟩ = order) ∧
    ((order.Date.Weekday = 6 ∨ order.Date.Weekday = 0) →
      applyDiscount fused order ⟨"IC015", percent, rules⟩
        = { order with Products := (order.Products.map
              (fun p => { p with Price := discountPrice fused p.Price rate10 })) } ∧
      applyDiscount fused order ⟨"IC015", percent, rules⟩
        = applyPercentageDiscount fused order rate10) := by
  have h1 : ¬ ("IC015" = "IC003") := by decide
  have h2 : ¬ ("IC015" = "IC042") := by decide
  refine ⟨weekday_lt _, ?_, ?_⟩
  · intro hw
    have : ¬ (order.Date.Weekday = 6 ∨ order.Date.Weekday = 0) := by omega
    simp only [applyDiscount, h1, h2, if_false, if_true, applyWeekendDiscount, this]
  · intro hw
    have heq : applyDiscount fused order ⟨"IC015", percent, rules⟩
        = applyPercentageDiscount fused order rate10 := by
      simp only [applyDiscount, h1, h2, if_false, if_true, applyWeekendDiscount, hw]
    refine ⟨?_, heq⟩
    rw [heq, applyPercentageDiscount_eq]
    rfl

/-- Witness for C6: Monday 8 January 2024 and Saturday 6 January 2024 (UTC). -/
theorem applyDiscount_weekend_witness :
    (⟨1704672000000000000, 0⟩ : Time).Weekday = 1 ∧
    (⟨1704499200000000000, 0⟩ : Time).Weekday = 6 ∧
    applyDiscount false
        ⟨NilObjectID, "c1", ⟨1704672000000000000, 0⟩, "pending",
          [⟨NilObjectID, "tv", F64.ofNat 100, "", "", ["electronic"]⟩]⟩ ⟨"IC015", 10, ""⟩
      = ⟨NilObjectID, "c1", ⟨1704672000000000000, 0⟩, "pending",
          [⟨NilObjectID, "tv", F64.ofNat 100, "", "", ["electronic"]⟩]⟩ ∧
    applyDiscount false
        ⟨NilObjectID, "c1", ⟨1704499200000000000, 0⟩, "pending",
          [⟨NilObjectID, "tv", F64.ofNat 100, "", "", ["electronic"]⟩]⟩ ⟨"IC015", 10, ""⟩
      = applyPercentageDiscount false
        ⟨NilObjectID, "c1", ⟨1704499200000000000, 0⟩, "pending",
          [⟨NilObjectID, "tv", F64.ofNat 100, "", "", ["electronic"]⟩]⟩ rate10 :=
  ⟨by decide, by decide,
   (applyDiscount_weekend false _ 10 "").2.1 (by decide),
   ((applyDiscount_weekend false _ 10 "").2.2 (by decide)).2⟩

/-! ## Rounding of `float64` results -/

theorem log2Aux_spec (fuel n : Nat) (hf : n ≤ fuel) (hn : 0 < n) :
    2 ^ log2Aux fuel n ≤ n ∧ n < 2 ^ (log2Aux fuel n + 1) := by
  induction fuel generalizing n with
  | zero => omega
  | succ fuel ih =>
    unfold log2Aux
    by_cases h2 : n < 2
    · simp only [h2, if_true]
      constructor <;> omega
    · simp only [h2, if_false]
      have hdiv : n / 2 ≤ fuel := by omega
      have hpos : 0 < n / 2 := by omega
      obtain ⟨a, b⟩ := ih (n / 2) hdiv hpos
      constructor
      · have : 2 ^ (log2Aux fuel (n / 2) + 1) = 2 * 2 ^ log2Aux fuel (n / 2) := by
          rw [pow_succ]; ring
        omega
      · have : 2 ^ (log2Aux fuel (n / 2) + 1 + 1) = 2 * 2 ^ (log2Aux fuel (n / 2) + 1) := by
          rw [pow_succ]; ring
        omega

theorem log2Floor_spec (n : Nat) (hn : 0 < n) :
    2 ^ log2Floor n ≤ n ∧ n < 2 ^ (log2Floor n + 1) :=
  log2Aux_spec n n (le_refl n) hn

theorem pow2_lt_of (a x y : Nat) (h1 : 2 ^ y ≤ a) (h2 : a < 2 ^ x) : y < x := by
  have : 2 ^ y < 2 ^ x := lt_of_le_of_lt h1 h2
  exact (Nat.pow_lt_pow_iff_right (by norm_num)).mp this

theorem mant_lt (p : F64) (hp : p.IsFinite) : p.mant < 2 ^ 53 := by
  obtain ⟨_, hf⟩ := hp
  unfold F64.mant
  split <;> omega

theorem shift_le (p : F64) (hp : p.IsFinite) : p.shift ≤ 2045 := by
  obtain ⟨he, _⟩ := hp
  unfold F64.shift
  omega

theorem roundPack_sign_nan (neg : Bool) (n scale : Nat) :
    (roundPack neg n scale).sign = neg ∧ (roundPack neg n scale).isNaN = false := by
  unfold roundPack
  simp only []
  split_ifs <;> simp [F64.zero, F64.inf, F64.isNaN] <;> omega

theorem roundPack_le (n scale : Nat) (p : F64) (hp : p.IsFinite) (hn : 0 < n)
    (hle : n ≤ p.mag * 2 ^ scale) :
    (roundPack false n scale).IsFinite ∧ (roundPack false n scale).mag ≤ p.mag := by
  have hn0 : n ≠ 0 := by omega
  obtain ⟨hL1, hL2⟩ := log2Floor_spec n hn
  have hM := mant_lt p hp
  have hs := shift_le p hp
  unfold roundPack
  rw [if_neg hn0]
  simp only []
  generalize hL : log2Floor n = L at *
  generalize hq : L - scale - 52 = q
  generalize hsh : scale + q = sh
  generalize hk : n / 2 ^ sh = k
  generalize hrem : n % 2 ^ sh = rem
  generalize hup : (decide (2 ^ sh < 2 * rem) || (decide (2 * rem = 2 ^ sh) && decide (k % 2 = 1))) = up
  generalize hk1 : (if up = true then k + 1 else k) = k1
  have hpos : 0 < 2 ^ sh := Nat.two_pow_pos _
  have hdm : 2 ^ sh * k + rem = n := by
    rw [← hk, ← hrem]; exact Nat.div_add_mod n (2 ^ sh)
  -- the quotient has at most 53 bits
  have hk53 : k < 2 ^ 53 := by
    rw [← hk]
    apply Nat.div_lt_of_lt_mul
    have : L + 1 ≤ sh + 53 := by omega
    calc n < 2 ^ (L + 1) := hL2
      _ ≤ 2 ^ (sh + 53) := Nat.pow_le_pow_right (by norm_num) this
      _ = 2 ^ sh * 2 ^ 53 := by rw [pow_add]
  -- a positive exponent step means a full significand
  have hk52 : 0 < q → 2 ^ 52 ≤ k := by
    intro hq0
    rw [← hk]
    apply (Nat.le_div_iff_mul_le hpos).mpr
    have : sh + 52 = L := by omega
    calc 2 ^ 52 * 2 ^ sh = 2 ^ (sh + 52) := by rw [pow_add]; ring
      _ = 2 ^ L := by rw [this]
      _ ≤ n := hL1
  -- the bound is a multiple of the rounding step
  have hqs : q ≤ p.shift := by
    by_cases hq0 : q = 0
    · omega
    · have h1 : 2 ^ (sh + 52) ≤ n := by
        have : sh + 52 = L := by omega
        rw [this]; exact hL1
      have h2 : n < 2 ^ (53 + p.shift + scale) := by
        calc n ≤ p.mant * 2 ^ p.shift * 2 ^ scale := hle
          _ < 2 ^ 53 * 2 ^ p.shift * 2 ^ scale := by
            apply Nat.mul_lt_mul_of_pos_right _ (Nat.two_pow_pos _)
            exact Nat.mul_lt_mul_of_pos_right hM (Nat.two_pow_pos _)
          _ = 2 ^ (53 + p.shift + scale) := by rw [pow_add, pow_add]
      have := pow2_lt_of n _ _ h1 h2
      omega
  obtain ⟨K, hK⟩ : ∃ K, p.mag = K * 2 ^ q := by
    refine ⟨p.mant * 2 ^ (p.shift - q), ?_⟩
    unfold F64.mag
    rw [Nat.mul_assoc, ← pow_add]
    congr 2
    omega
  have hnK : n ≤ K * 2 ^ sh := by
    calc n ≤ p.mag * 2 ^ scale := hle
      _ = K * 2 ^ q * 2 ^ scale := by rw [hK]
      _ = K * 2 ^ sh := by rw [← hsh, pow_add]; ring
  have hkK : k ≤ K := by
    rw [← hk]
    exact Nat.div_le_of_le_mul (by rw [Nat.mul_comm]; exact hnK)
  have hk1K : k1 ≤ K := by
    rw [← hk1]
    by_cases hu : up = true
    · simp only [hu, if_true]
      have hrpos : 0 < rem := by
        rw [← hup] at hu
        simp only [Bool.or_eq_true, Bool.and_eq_true, decide_eq_true_eq] at hu
        rcases hu with h | ⟨h, _⟩ <;> omega
      by_contra hcon
      have hKk : K ≤ k := by omega
      have : K * 2 ^ sh ≤ k * 2 ^ sh := Nat.mul_le_mul_right _ hKk
      have h3 : 2 ^ sh * k = k * 2 ^ sh := Nat.mul_comm _ _
      omega
    · simp only [hu]
      exact hkK
  have hk1k : k ≤ k1 := by
    rw [← hk1]; split <;> omega
  have hk1le : k1 ≤ 2 ^ 53 := by
    rw [← hk1]; split <;> omega
  have hval : k1 * 2 ^ q ≤ p.mag := by
    rw [hK]; exact Nat.mul_le_mul_right _ hk1K
  have hpmag : p.mag < 2 ^ (53 + p.shift) := by
    unfold F64.mag
    calc p.mant * 2 ^ p.shift < 2 ^ 53 * 2 ^ p.shift :=
          Nat.mul_lt_mul_of_pos_right hM (Nat.two_pow_pos _)
      _ = 2 ^ (53 + p.shift) := by rw [pow_add]
  by_cases c1 : k1 < 2 ^ 52
  · have hq0 : q = 0 := by
      by_contra h
      have := hk52 (by omega)
      omega
    simp only [c1, if_true]
    refine ⟨⟨by norm_num, c1⟩, ?_⟩
    subst hq0
    simpa [F64.mag, F64.mant, F64.shift] using hval
  · simp only [c1, if_false]
    by_cases c2 : k1 < 2 ^ 53
    · have hq1 : q + 1 < 2047 := by
        have h1 : 2 ^ (52 + q) ≤ p.mag := by
          calc 2 ^ (52 + q) = 2 ^ 52 * 2 ^ q := by rw [pow_add]
            _ ≤ k1 * 2 ^ q := Nat.mul_le_mul_right _ (by omega)
            _ ≤ p.mag := hval
        have := pow2_lt_of _ _ _ h1 hpmag
        omega
      simp only [c2, hq1, if_true]
      refine ⟨⟨hq1, by simp only []; omega⟩, ?_⟩
      have hm : (⟨false, q + 1, k1 - 2 ^ 52⟩ : F64).mag = k1 * 2 ^ q := by
        simp only [F64.mag, F64.mant, F64.shift]
        rw [if_neg (by omega)]
        have e1 : 2 ^ 52 + (k1 - 2 ^ 52) = k1 := by omega
        have e2 : q + 1 - 1 = q := by omega
        rw [e1, e2]
      rw [hm]; exact hval
    · have hk1eq : k1 = 2 ^ 53 := by omega
      have hq2 : q + 2 < 2047 := by
        have h1 : 2 ^ (53 + q) ≤ p.mag := by
          calc 2 ^ (53 + q) = 2 ^ 53 * 2 ^ q := by rw [pow_add]
            _ = k1 * 2 ^ q := by rw [hk1eq]
            _ ≤ p.mag := hval
        have := pow2_lt_of _ _ _ h1 hpmag
        omega
      simp only [c2, hq2, if_true, if_false]
      refine ⟨⟨hq2, by norm_num⟩, ?_⟩
      have hm : (⟨false, q + 2, 0⟩ : F64).mag = k1 * 2 ^ q := by
        simp only [F64.mag, F64.mant, F64.shift]
        rw [if_neg (by omega), hk1eq]
        have : q + 2 - 1 = q + 1 := by omega
        rw [this, pow_succ]
        ring
      rw [hm]; exact hval

theorem isNaN_of_finite (x : F64) (hx : x.IsFinite) : x.isNaN = false := by
  have : x.exp ≠ 2047 := by unfold F64.IsFinite at hx; omega
  simp [F64.isNaN, this]

theorem isInf_of_finite (x : F64) (hx : x.IsFinite) : x.isInf = false := by
  have : x.exp ≠ 2047 := by unfold F64.IsFinite at hx; omega
  simp [F64.isInf, this]

theorem fneg_finite (x : F64) (hx : x.IsFinite) : (fneg x).IsFinite := hx

theorem fneg_toInt (x : F64) : (fneg x).toInt = -x.toInt := by
  unfold fneg F64.toInt F64.mag F64.mant F64.shift
  cases x.sign <;> simp

theorem sign_of_nonneg (x : F64) (h : 0 ≤ x.toInt) (hm : 0 < x.mag) : x.sign = false := by
  unfold F64.toInt at h
  cases hs : x.sign with
  | false => rfl
  | true => simp [hs] at h; omega

theorem toInt_of_nonneg (x : F64) (h : 0 ≤ x.toInt) : x.toInt = (x.mag : Int) := by
  unfold F64.toInt at *
  split at h <;> simp_all

theorem fle_finite (a b : F64) (ha : a.IsFinite) (hb : b.IsFinite) :
    fle a b = decide (a.toInt ≤ b.toInt) := by
  simp [fle, isNaN_of_finite a ha, isNaN_of_finite b hb, isInf_of_finite a ha,
    isInf_of_finite b hb]

theorem zero_finite (neg : Bool) : (F64.zero neg).IsFinite := by
  simp [F64.zero, F64.IsFinite]

theorem zero_toInt (neg : Bool) : (F64.zero neg).toInt = 0 := by
  cases neg <;> simp [F64.zero, F64.toInt, F64.mag, F64.mant]

/-- Rounding a magnitude that does not exceed a non-negative finite `p` (or
any magnitude taken with a minus sign) gives a value at or below `p`. -/
theorem fle_roundPack (neg : Bool) (n scale : Nat) (p : F64) (hp : p.IsFinite)
    (hpn : 0 ≤ p.toInt) (h : neg = false → n ≤ p.mag * 2 ^ scale) :
    fle (roundPack neg n scale) p = true := by
  have hpnan := isNaN_of_finite p hp
  have hpinf := isInf_of_finite p hp
  obtain ⟨hsign, hnan⟩ := roundPack_sign_nan neg n scale
  by_cases hn : n = 0
  · subst hn
    have hz : roundPack neg 0 scale = F64.zero neg := by simp [roundPack]
    rw [hz]
    rw [fle_finite _ _ (zero_finite neg) hp, zero_toInt]
    simpa using hpn
  · cases neg with
    | true =>
      by_cases hi : (roundPack true n scale).isInf = true
      · simp [fle, hnan, hpnan, hi, hsign]
      · have hi2 : (roundPack true n scale).isInf = false := by
          cases h : (roundPack true n scale).isInf <;> simp_all
        have : (roundPack true n scale).toInt ≤ p.toInt := by
          have : (roundPack true n scale).toInt ≤ 0 := by
            unfold F64.toInt
            rw [hsign]
            simp
          omega
        simp [fle, hnan, hpnan, hi2, hpinf, this]
    | false =>
      obtain ⟨hfin, hmag⟩ := roundPack_le n scale p hp (by omega) (h rfl)
      have hi2 := isInf_of_finite _ hfin
      have h1 : (roundPack false n scale).toInt = ((roundPack false n scale).mag : Int) := by
        unfold F64.toInt
        rw [hsign]
        simp
      have h2 := toInt_of_nonneg p hpn
      have : (roundPack false n scale).toInt ≤ p.toInt := by omega
      simp [fle, hnan, hpnan, hi2, hpinf, this]

theorem mag_zero_of_nonneg_neg (p : F64) (hpn : 0 ≤ p.toInt) (hs : p.sign = true) :
    p.mag = 0 := by
  unfold F64.toInt at hpn
  simp [hs] at hpn
  omega

/-- The discounted price never exceeds a finite non-negative price. -/
theorem discountPrice_le (fused : Bool) (p r : F64) (hp : p.IsFinite) (hpn : 0 ≤ p.toInt)
    (hr : r.IsFinite) (hrs : r.sign = false) :
    fle (discountPrice fused p r) p = true := by
  have hpnan := isNaN_of_finite p hp
  have hpinf := isInf_of_finite p hp
  have hrnan := isNaN_of_finite r hr
  have hrinf := isInf_of_finite r hr
  have hpm := toInt_of_nonneg p hpn
  have hrm : r.toInt = (r.mag : Int) := by unfold F64.toInt; simp [hrs]
  cases fused with
  | true =>
    have hnp := fneg_finite p hp
    simp only [discountPrice, if_true, ffma, isNaN_of_finite _ hnp, isInf_of_finite _ hnp,
      hrnan, hrinf, hpnan, hpinf, Bool.or_self, Bool.false_eq_true, if_false, fneg_toInt]
    by_cases hd : -p.toInt * r.toInt + p.toInt * 2 ^ 1074 = 0
    · rw [if_pos hd, fle_finite _ _ (zero_finite _) hp, zero_toInt]
      simpa using hpn
    · rw [if_neg hd]
      apply fle_roundPack _ _ _ p hp hpn
      intro hneg
      have hmul : (0 : Int) ≤ (p.mag : Int) * (r.mag : Int) := by positivity
      have hcast : ((p.mag * 2 ^ 1074 : Nat) : Int) = (p.mag : Int) * 2 ^ 1074 := by
        rw [Nat.cast_mul, Nat.cast_pow]; rfl
      rw [hpm, hrm, neg_mul] at hd hneg ⊢
      have hge : ¬ (-((p.mag : Int) * (r.mag : Int)) + (p.mag : Int) * 2 ^ 1074 < 0) :=
        of_decide_eq_false hneg
      have : ((-((p.mag : Int) * (r.mag : Int)) + (p.mag : Int) * 2 ^ 1074).natAbs : Int)
          ≤ ((p.mag * 2 ^ 1074 : Nat) : Int) := by
        rw [hcast]
        generalize (p.mag : Int) * (r.mag : Int) = X at *
        generalize (p.mag : Int) * 2 ^ 1074 = Y at *
        rw [Int.natAbs_of_nonneg (show 0 ≤ -X + Y by omega)]
        omega
      exact_mod_cast this
  | false =>
    have hy := roundPack_sign_nan (xor p.sign r.sign) (p.mag * r.mag) 1074
    have hmul : fmul p r = roundPack p.sign (p.mag * r.mag) 1074 := by
      simp [fmul, hpnan, hrnan, hpinf, hrinf, hrs]
    obtain ⟨hysign, hynan⟩ := roundPack_sign_nan p.sign (p.mag * r.mag) 1074
    simp only [discountPrice, Bool.false_eq_true, if_false, hmul, fsub]
    generalize hyd : roundPack p.sign (p.mag * r.mag) 1074 = y at *
    have hnynan : (fneg y).isNaN = false := by
      simpa [fneg, F64.isNaN] using hynan
    simp only [fadd, hpnan, hnynan, hpinf, Bool.or_self, Bool.false_eq_true, if_false]
    by_cases hyi : (fneg y).isInf = true
    · rw [if_pos hyi]
      have hymag : p.mag * r.mag ≠ 0 := by
        intro h0
        rw [h0] at hyd
        have : y = F64.zero p.sign := by rw [← hyd]; simp [roundPack]
        rw [this] at hyi
        simp [fneg, F64.isInf, F64.zero] at hyi
      have hps : p.sign = false := by
        apply sign_of_nonneg p hpn
        rcases Nat.eq_zero_or_pos p.mag with h | h
        · rw [h] at hymag; simp at hymag
        · exact h
      have hns : (fneg y).sign = true := by simp [fneg, hysign, hps]
      simp [fle, hnynan, hpnan, hyi, hns]
    · rw [if_neg hyi]
      have hyinf : y.isInf = false := by
        cases h : y.isInf with
        | false => rfl
        | true => exact absurd (by simpa [fneg, F64.isInf] using h) hyi
      have hynn : 0 ≤ y.toInt := by
        cases hs : p.sign with
        | false =>
          unfold F64.toInt
          rw [hysign, hs]
          simp
        | true =>
          have h0 := mag_zero_of_nonneg_neg p hpn hs
          rw [h0] at hyd
          have : y = F64.zero p.sign := by rw [← hyd]; simp [roundPack]
          rw [this, zero_toInt]
      by_cases hd : p.toInt + (fneg y).toInt = 0
      · rw [if_pos hd, fle_finite _ _ (zero_finite _) hp, zero_toInt]
        simpa using hpn
      · rw [if_neg hd]
        apply fle_roundPack _ _ _ p hp hpn
        intro hneg
        rw [fneg_toInt] at hd hneg ⊢
        have hge : ¬ (p.toInt + -y.toInt < 0) := of_decide_eq_false hneg
        have e := Int.natAbs_of_nonneg (show 0 ≤ p.toInt + -y.toInt by omega)
        have : ((p.toInt + -y.toInt).natAbs : Int) ≤ (p.mag : Int) := by
          rw [e]; omega
        rw [pow_zero, Nat.mul_one]
        exact_mod_cast this

/-! ## Discount engine: prices never rise for non-negative finite prices -/

theorem rate_finite : rate10.IsFinite ∧ rate10.sign = false ∧ rate5.IsFinite ∧
    rate5.sign = false := by
  simp [rate10, rate5, F64.IsFinite]

theorem fle_self (x : F64) (hx : x.IsFinite) : fle x x = true := by
  rw [fle_finite x x hx hx]
  simp

theorem applyDiscount_item (fused : Bool) (order : Order) (discount : Discount) (i : Nat)
    (p : Product) (hp : order.Products[i]? = some p) :
    ∃ q, (applyDiscount fused order discount).Products[i]? = some q ∧
      (q = p ∨ q = p.discounted fused rate10 ∨ q = p.discounted fused rate5) := by
  unfold applyDiscount
  by_cases h1 : discount.Code = "IC003"
  · simp only [h1, if_true, applyPercentageDiscount_eq]
    exact ⟨p.discounted fused rate10, by simp [hp], Or.inr (Or.inl rfl)⟩
  · simp only [h1, if_false]
    by_cases h2 : discount.Code = "IC042"
    · simp only [h2, if_true, applyCategoryDiscount_eq]
      by_cases hc : contains p.Categories "electronic" = true
      · exact ⟨p.discounted fused rate5, by simp [hp, hc], Or.inr (Or.inr rfl)⟩
      · exact ⟨p, by simp [hp, hc], Or.inl rfl⟩
    · simp only [h2, if_false]
      by_cases h3 : discount.Code = "IC015"
      · simp only [h3, if_true, applyWeekendDiscount]
        by_cases hw : order.Date.Weekday = 6 ∨ order.Date.Weekday = 0
        · simp only [hw, if_true, applyPercentageDiscount_eq]
          exact ⟨p.discounted fused rate10, by simp [hp], Or.inr (Or.inl rfl)⟩
        · simp only [hw, if_false]
          exact ⟨p, hp, Or.inl rfl⟩
      · simp only [h3, if_false]
        exact ⟨p, hp, Or.inl rfl⟩

theorem rise_of_prices (x y : F64) (hd : discountPrice false x rate10 = y)
    (hf : fle y x = false) :
    ¬ (∀ (fused : Bool) (order : Order) (discount : Discount) (i : Nat) (p q : Product),
        order.Products[i]? = some p →
        (applyDiscount fused order discount).Products[i]? = some q →
        fle q.Price p.Price = true) := by
  intro h
  have key := h false
    ⟨NilObjectID, "c1", ⟨0, 0⟩, "pending", [⟨NilObjectID, "credit", x, "", "", []⟩]⟩
    ⟨"IC003", 10, ""⟩ 0 ⟨NilObjectID, "credit", x, "", "", []⟩
    ⟨NilObjectID, "credit", y, "", "", []⟩ rfl
    (by rw [applyDiscount_IC003]
        simp only [List.map_cons, List.map_nil, hd]
        rfl)
  simp only [hf] at key
  exact Bool.false_ne_true key

theorem discountPrice_neg100 :
    discountPrice false (F64.ofNegNat 100) rate10 = F64.ofNegNat 90 := by
  decide!

theorem fle_neg90_neg100 : fle (F64.ofNegNat 90) (F64.ofNegNat 100) = false := by
  decide!

theorem IC003_single (fused : Bool) (x : F64) :
    (applyDiscount fused
        ⟨NilObjectID, "c1", ⟨0, 0⟩, "pending", [⟨NilObjectID, "credit", x, "", "", []⟩]⟩
        ⟨"IC003", 10, ""⟩).Products
      = [⟨NilObjectID, "credit", discountPrice fused x rate10, "", "", []⟩] := by
  rw [applyDiscount_IC003]
  simp only [List.map_cons, List.map_nil]

/-- C7 (as stated, refuted): a line item priced -100.00 is priced -90.00 after
`applyDiscount` with code "IC003", which is greater than before, so not every
price is at or below its value before the call. -/
theorem price_can_rise :
    (applyDiscount false
        ⟨NilObjectID, "c1", ⟨0, 0⟩, "pending", [⟨NilObjectID, "credit", F64.ofNegNat 100, "", "", []⟩]⟩
        ⟨"IC003", 10, ""⟩).Products
      = [⟨NilObjectID, "credit", F64.ofNegNat 90, "", "", []⟩] ∧
    fle (F64.ofNegNat 90) (F64.ofNegNat 100) = false ∧
    fle (F64.ofNegNat 100) (F64.ofNegNat 90) = true ∧
    ¬ (∀ (fused : Bool) (order : Order) (discount : Discount) (i : Nat) (p q : Product),
        order.Products[i]? = some p →
        (applyDiscount fused order discount).Products[i]? = some q →
        fle q.Price p.Price = true) :=
  ⟨(IC003_single false (F64.ofNegNat 100)).trans
      (congrArg (fun x => [(⟨NilObjectID, "credit", x, "", "", []⟩ : Product)]) discountPrice_neg100),
    fle_neg90_neg100, by decide!,
    rise_of_prices (F64.ofNegNat 100) (F64.ofNegNat 90) discountPrice_neg100 fle_neg90_neg100⟩

/-- C7 (amended): for every order and every discount rule, a line item whose
price before the call is a finite `float64` with `0 <= price` has, after
`applyDiscount`, a price less than or equal to its price before the call. -/
theorem applyDiscount_price_le (fused : Bool) (order : Order) (discount : Discount)
    (i : Nat) (p : Product) (hp : order.Products[i]? = some p)
    (hfin : p.Price.IsFinite) (hnn : fle (F64.zero false) p.Price = true) :
    ∃ q, (applyDiscount fused order discount).Products[i]? = some q ∧
      fle q.Price p.Price = true := by
  have hpn : 0 ≤ p.Price.toInt := by
    rw [fle_finite _ _ (zero_finite false) hfin, zero_toInt] at hnn
    simpa using hnn
  obtain ⟨hr10, hs10, hr5, hs5⟩ := rate_finite
  obtain ⟨q, hq, hcase⟩ := applyDiscount_item fused order discount i p hp
  refine ⟨q, hq, ?_⟩
  rcases hcase with h | h | h
  · rw [h]; exact fle_self _ hfin
  · rw [h]; exact discountPrice_le fused p.Price rate10 hfin hpn hr10 hs10
  · rw [h]; exact discountPrice_le fused p.Price rate5 hfin hpn hr5 hs5

/-- Witness for C7 (amended): one line item priced 100.00 and code "IC003". -/
theorem applyDiscount_price_le_witness :
    (F64.ofNat 100).IsFinite ∧ fle (F64.zero false) (F64.ofNat 100) = true ∧
    ∃ q, (applyDiscount false
        ⟨NilObjectID, "c1", ⟨0, 0⟩, "pending", [⟨NilObjectID, "tv", F64.ofNat 100, "", "", []⟩]⟩
        ⟨"IC003", 10, ""⟩).Products[0]? = some q ∧
      fle q.Price (F64.ofNat 100) = true :=
by
  have hfin : (F64.ofNat 100).IsFinite := by decide!
  have hnn : fle (F64.zero false) (F64.ofNat 100) = true := by decide!
  generalize F64.ofNat 100 = x at hfin hnn ⊢
  exact ⟨hfin, hnn,
    applyDiscount_price_le false
      ⟨NilObjectID, "c1", ⟨0, 0⟩, "pending", [⟨NilObjectID, "tv", x, "", "", []⟩]⟩
      ⟨"IC003", 10, ""⟩ 0 ⟨NilObjectID, "tv", x, "", "", []⟩ rfl hfin hnn⟩

/-! ## Order pipeline: validation comes first -/

/-- C10: a decoded request whose `customer_id` is empty or whose `product_ids`
list is empty is answered 400 "Invalid order request" and no call to the store
(customer, product or discount lookup, order insert) is made. -/
theorem placeOrder_invalid (fused : Bool) (env : Store) (orderReq : OrderRequest)
    (h : orderReq.ProductIDs = [] ∨ orderReq.CustomerID = "") :
    placeOrder fused env (Except.ok orderReq)
      = (⟨400, Body.error "Invalid order request"⟩, []) := by
  have hc : orderReq.CustomerID = "" ∨ orderReq.ProductIDs.length = 0 := by
    rcases h with h | h
    · exact Or.inr (by rw [h]; rfl)
    · exact Or.inl h
  simp only [placeOrder, hc, if_true]

/-- Witness for C10: a customer identifier with an empty product list. -/
theorem placeOrder_invalid_witness :
    ((⟨"64b7f0c2a1d2e3f4a5b6c7d8", [], "IC003"⟩ : OrderRequest).ProductIDs = [] ∨
      (⟨"64b7f0c2a1d2e3f4a5b6c7d8", [], "IC003"⟩ : OrderRequest).CustomerID = "") ∧
    ∀ env : Store, placeOrder false env (Except.ok ⟨"64b7f0c2a1d2e3f4a5b6c7d8", [], "IC003"⟩)
      = (⟨400, Body.error "Invalid order request"⟩, []) :=
  ⟨Or.inl rfl, fun env => placeOrder_invalid false env _ (Or.inl rfl)⟩

/-! ## Reminder sweep -/

theorem runSweep_append (sem : LoopVar) (loc : Location) (now : Int) (l : List Order)
    (o : Order) :
    runPendingOrderReminderTask sem loc now (l ++ [o])
      = sweepStep sem loc now (runPendingOrderReminderTask sem loc now l) o := by
  simp [runPendingOrderReminderTask, List.foldl_append]

theorem sweep_perIteration (loc : Location) (now : Int) (l : List Order) :
    (runPendingOrderReminderTask LoopVar.perIteration loc now l).cells = l ∧
    (runPendingOrderReminderTask LoopVar.perIteration loc now l).timers
      = (List.range l.length).map
          (fun i => ({ delay := durationUntilMidnight loc now, captured := i } : Reminder)) := by
  induction l using List.reverseRecOn with
  | nil => simp [runPendingOrderReminderTask]
  | append_singleton l o ih =>
    rw [runSweep_append]
    obtain ⟨hc, ht⟩ := ih
    simp only [sweepStep, hc, ht]
    refine ⟨trivial, ?_⟩
    rw [List.length_append, List.length_singleton, List.range_succ, List.map_append]
    simp

theorem sweep_perLoop (loc : Location) (now : Int) (l : List Order) :
    (runPendingOrderReminderTask LoopVar.perLoop loc now l).cells = l.getLast?.toList ∧
    (runPendingOrderReminderTask LoopVar.perLoop loc now l).timers
      = List.replicate l.length
          ({ delay := durationUntilMidnight loc now, captured := 0 } : Reminder) := by
  induction l using List.reverseRecOn with
  | nil => simp [runPendingOrderReminderTask]
  | append_singleton l o ih =>
    rw [runSweep_append]
    obtain ⟨_, ht⟩ := ih
    simp only [sweepStep, ht]
    refine ⟨by simp, ?_⟩
    rw [List.length_append, List.length_singleton, List.replicate_succ']

/-- Under either loop-variable rule and in every location the sweep schedules
one timer per pending order, all with the delay `midnight.Sub(now)`. -/
theorem reminder_timers (sem : LoopVar) (loc : Location) (now : Int)
    (pendingOrders : List Order) :
    (runPendingOrderReminderTask sem loc now pendingOrders).timers.length
      = pendingOrders.length ∧
    ∀ t ∈ (runPendingOrderReminderTask sem loc now pendingOrders).timers,
      t.delay = durationUntilMidnight loc now := by
  cases sem with
  | perIteration =>
    obtain ⟨_, ht⟩ := sweep_perIteration loc now pendingOrders
    rw [ht]
    refine ⟨by simp, fun t hmem => ?_⟩
    obtain ⟨i, _, rfl⟩ := List.mem_map.mp hmem
    rfl
  | perLoop =>
    obtain ⟨_, ht⟩ := sweep_perLoop loc now pendingOrders
    rw [ht]
    refine ⟨by simp, fun t hmem => ?_⟩
    rw [(List.mem_replicate.mp hmem).2]

/-- With one loop variable per iteration (Go 1.22 and later) the timer of the
`i`-th order calls `sendOrderReminderEmail` with that order's `CustomerID`. -/
theorem reminder_own_order (loc : Location) (now : Int) (pendingOrders : List Order)
    (i : Nat) (o : Order) (ho : pendingOrders[i]? = some o) :
    firedCustomer (runPendingOrderReminderTask LoopVar.perIteration loc now pendingOrders) i
      = some o.CustomerID := by
  obtain ⟨hc, ht⟩ := sweep_perIteration loc now pendingOrders
  have hi : i < pendingOrders.length := by
    by_contra hcon
    rw [List.getElem?_eq_none (by omega)] at ho
    exact absurd ho (by simp)
  unfold firedCustomer
  rw [ht, hc]
  simp [List.getElem?_map, List.getElem?_range hi, ho]

/-- With one loop variable for the whole loop (language versions before Go
1.22) every timer reads the variable after the loop has ended, and calls
`sendOrderReminderEmail` with the `CustomerID` of the last pending order. -/
theorem reminder_shared_variable (loc : Location) (now : Int) (pendingOrders : List Order)
    (i : Nat) (last : Order) (hi : i < pendingOrders.length)
    (hlast : pendingOrders.getLast? = some last) :
    firedCustomer (runPendingOrderReminderTask LoopVar.perLoop loc now pendingOrders) i
      = some last.CustomerID := by
  obtain ⟨hc, ht⟩ := sweep_perLoop loc now pendingOrders
  unfold firedCustomer
  rw [ht, hc, hlast]
  simp [List.getElem?_replicate, hi]

/-- In a location with one zone the delay is positive, at most 24 hours, and
ends on a local midnight. -/
theorem durationUntilMidnight_fixedZone (offset now : Int) :
    0 < durationUntilMidnight (fixedZone offset) now ∧
    durationUntilMidnight (fixedZone offset) now ≤ 86400 * 1000000000 ∧
    (now + durationUntilMidnight (fixedZone offset) now + offset * 1000000000)
      % (86400 * 1000000000) = 0 := by
  have hd : dateNextDay (fixedZone offset) now
      = ((now / 1000000000 + offset) / 86400 + 1) * 86400 - offset := by
    unfold dateNextDay fixedZone
    simp only []
    by_cases h0 : offset = 0
    · simp [h0]
    · simp only [ne_eq, h0, not_false_eq_true, if_true]
      split <;> rfl
  unfold durationUntilMidnight satDuration
  rw [hd]
  have h63 : (2 : Int) ^ 63 = 9223372036854775808 := by norm_num
  rw [h63]
  split_ifs <;> omega

/-- On the day New York's clocks go back the sweep triggered at local midnight
waits 25 hours. -/
theorem durationUntilMidnight_clockChange :
    durationUntilMidnight newYorkAutumn2000 972792000000000000 = 90000 * 1000000000 := by
  decide

/-- C9 (evaluation): with two pending orders of customers "aaa" and "bbb" and
one `order` variable for the whole loop (language versions before Go 1.22), two
timers are scheduled and both call `sendOrderReminderEmail` with "bbb"; the
timer of the first order does not send for its own customer.  With one variable
per iteration it sends for "aaa". -/
theorem reminders_read_last_order :
    (runPendingOrderReminderTask LoopVar.perLoop (fixedZone 0) 1704672000000000000
        [pendingOrderOf "aaa", pendingOrderOf "bbb"]).timers.length = 2 ∧
    firedCustomer (runPendingOrderReminderTask LoopVar.perLoop (fixedZone 0)
        1704672000000000000 [pendingOrderOf "aaa", pendingOrderOf "bbb"]) 0 = some "bbb" ∧
    firedCustomer (runPendingOrderReminderTask LoopVar.perLoop (fixedZone 0)
        1704672000000000000 [pendingOrderOf "aaa", pendingOrderOf "bbb"]) 1 = some "bbb" ∧
    firedCustomer (runPendingOrderReminderTask LoopVar.perIteration (fixedZone 0)
        1704672000000000000 [pendingOrderOf "aaa", pendingOrderOf "bbb"]) 0 = some "aaa" := by
  decide

end Ecommerce
